import Mathlib

/-!
Verification development for the Cheevr/Config repository.

The subject is the `Config` class (the current revision, with YAML support and
the environment overlay) together with the `appendValue` helper from the older
revision that still carries it.  JavaScript objects are modelled as ordered
association lists of string keys, JavaScript values as the inductive `JValue`.
External collaborators (lodash `defaultsDeep`, the `flat` package's
`unflatten`, `JSON.parse`, `path`, `fs`, minimist) are modelled by definitions
that follow their documented behaviour on the value space used here; the
ambient command line / environment settings are collapsed into resolved fields
of the `Ambient` structure.

Modelling scope (noted once here): configuration keys are assumed not to
collide with the class API member names (`tier`, `dir`, `reload`, ...) or with
the internal bookkeeping fields, which are kept as separate record fields;
character-index property access on string values and expando properties on
arrays are outside the modelled key space.  JavaScript numbers are modelled as
integers.
-/

namespace Cheevr

/-- A JavaScript value: null, boolean, number, string, array, or object
(an ordered association list of string keys, as `for..in` order matters). -/
inductive JValue where
  | null : JValue
  | bool : Bool → JValue
  | num : Int → JValue
  | str : String → JValue
  | arr : List JValue → JValue
  | obj : List (String × JValue) → JValue
deriving Repr

/-- JavaScript truthiness of a value (absence, i.e. `undefined`, is modelled
by `Option.none` at use sites). -/
def jsTruthy : JValue → Bool
  | .null => false
  | .bool b => b
  | .num n => n != 0
  | .str s => !s.isEmpty
  | .arr _ => true
  | .obj _ => true

/-- Whether `typeof v == 'object'` holds in JavaScript: objects, arrays and
`null` all answer `'object'`. -/
def isObjType : JValue → Bool
  | .null => true
  | .arr _ => true
  | .obj _ => true
  | _ => false

/-- A scalar for the purpose of the fill-missing merge: neither an object nor
an array (those are the values the deep merge recurses into). -/
def isScalar : JValue → Bool
  | .obj _ => false
  | .arr _ => false
  | _ => true

/-- First-match lookup in an association list (JavaScript property read). -/
def lookupKV {α : Type} : List (String × α) → String → Option α
  | [], _ => none
  | (k', v) :: rest, k => if k' = k then some v else lookupKV rest k

/-- Property write: updates the first entry with the given key in place
(keeping its position), or appends a new entry at the end, exactly as
JavaScript property assignment orders keys. -/
def setKV {α : Type} : List (String × α) → String → α → List (String × α)
  | [], k, v => [(k, v)]
  | (k', v') :: rest, k, v =>
      if k' = k then (k', v) :: rest else (k', v') :: setKV rest k v

/-- Property deletion: removes the first entry with the given key. -/
def eraseKV {α : Type} : List (String × α) → String → List (String × α)
  | [], _ => []
  | (k', v') :: rest, k =>
      if k' = k then rest else (k', v') :: eraseKV rest k

/-- The keys of an association list are pairwise distinct. -/
def keysNodup {α : Type} (l : List (String × α)) : Prop :=
  (l.map Prod.fst).Nodup

mutual

/-- lodash `defaultsDeep` (the deep fill-missing merge), mutated-target form:
`ddVal t s` is the value of the target `t` after `defaultsDeep(t, s)`.
Objects merge per key (assign when the target key is `undefined`, recurse
otherwise), arrays merge element-wise with the source's extra tail appended;
every other combination leaves the target untouched. -/
def ddVal : JValue → JValue → JValue
  | .obj tf, .obj sf => .obj (ddObj tf sf)
  | .arr tx, .arr sx => .arr (ddArr tx sx)
  | t, _ => t

def ddObj : List (String × JValue) → List (String × JValue) → List (String × JValue)
  | tf, [] => tf
  | tf, (k, sv) :: rest =>
      ddObj
        (match lookupKV tf k with
         | none => tf ++ [(k, sv)]
         | some tv => setKV tf k (ddVal tv sv))
        rest

def ddArr : List JValue → List JValue → List JValue
  | tx, [] => tx
  | [], sv :: rest => sv :: ddArr [] rest
  | tv :: tx, sv :: rest => ddVal tv sv :: ddArr tx rest

end

/-- The own enumerable properties `for..in` sees on a value: an object's
entries, an array's index entries, a string's character index entries;
other primitives have none. -/
def propsOf : JValue → List (String × JValue)
  | .obj fs => fs
  | .arr xs => (xs.enum.map fun p => (Nat.repr p.1, p.2))
  | .str s => (s.toList.enum.map fun p => (Nat.repr p.1, .str (String.mk [p.2])))
  | _ => []

/-- One step of `Config._apply`: assign the incoming value when the key is
currently `undefined` on the object, otherwise `defaultsDeep` the incoming
value into the existing one. -/
def applyIns (st : List (String × JValue)) (k : String) (v : JValue) :
    List (String × JValue) :=
  match lookupKV st k with
  | none => st ++ [(k, v)]
  | some tv => setKV st k (ddVal tv v)

/-- `Config._apply(config)`: iterate the incoming object's enumerable
properties in order, filling the live object without overwriting. -/
def applyKV (st : List (String × JValue)) : List (String × JValue) → List (String × JValue)
  | [] => st
  | (k, v) :: rest => applyKV (applyIns st k v) rest

/-- Read a value at a chain of object keys (a dotted path). -/
def getPath : JValue → List String → Option JValue
  | v, [] => some v
  | .obj fs, k :: ks =>
      match lookupKV fs k with
      | some v => getPath v ks
      | none => none
  | _, _ :: _ => none

/-- Read a path starting from a property map. -/
def getPathKV (st : List (String × JValue)) (p : List String) : Option JValue :=
  getPath (.obj st) p

/-- `s.startsWith(pre)` for string prefixes, character-wise (the core
`String.startsWith` is observationally the same but does not reduce in the
kernel). -/
def startsWithS (s pre : String) : Bool := pre.toList.isPrefixOf s.toList

/-- `s.toLowerCase()`, character-wise. -/
def toLowerS (s : String) : String := String.mk (s.toList.map Char.toLower)

/-- Worker for `splitOnS`: scan for the (nonempty) delimiter.  The `Nat`
fuel, seeded with the scanned list's length, keeps the recursion structural
(every step consumes at least one character, so the fuel never runs out). -/
def splitOnGo (dh : Char) (dt : List Char) : Nat → List Char → List Char → List String
  | 0, acc, _ => [String.mk acc.reverse]
  | _ + 1, acc, [] => [String.mk acc.reverse]
  | fuel + 1, acc, c :: rest =>
      if (dh :: dt).isPrefixOf (c :: rest) then
        String.mk acc.reverse :: splitOnGo dh dt fuel [] (rest.drop dt.length)
      else splitOnGo dh dt fuel (c :: acc) rest

/-- `s.split(d)` for a string delimiter (an empty delimiter, which JavaScript
treats as a per-character split, does not occur: the separator setting
defaults to an underscore). -/
def splitOnS (s d : String) : List String :=
  match d.toList with
  | [] => [s]
  | dh :: dt => splitOnGo dh dt s.toList.length [] s.toList

/-- A decimal digit's value. -/
def decDigit? (c : Char) : Option Nat :=
  if c.isDigit then some (c.toNat - 48) else none

/-- Parse a nonempty all-digit string as a natural number. -/
def toNatS (s : String) : Option Nat :=
  match s.toList with
  | [] => none
  | cs => cs.foldl
      (fun acc c => match acc, decDigit? c with
                    | some n, some d => some (n * 10 + d)
                    | _, _ => none)
      (some 0)

/-- The string/path helpers of Node's `path` module used by the source,
modelled over plain strings with `/` as separator. -/
def pjoin (a b : String) : String := a ++ "/" ++ b

/-- `path.isAbsolute`. -/
def isAbs (p : String) : Bool := startsWithS p "/"

/-- `path.basename` (no suffix argument): everything after the last `/`. -/
def baseName (p : String) : String :=
  String.mk (p.toList.reverse.takeWhile (· ≠ '/')).reverse

/-- `path.extname`: the suffix of the base name from its last dot (that dot
included), unless the base name is a dotfile (dot at position 0) or has no
dot, in which case it is empty. -/
def extName (p : String) : String :=
  let b := (baseName p).toList
  let tail := b.reverse.takeWhile (· ≠ '.')
  if tail.length = b.length then ""
  else if b.length - tail.length - 1 = 0 then ""
  else String.mk ('.' :: tail.reverse)

/-- `path.parse(p).name` / `path.basename(p, extname(p))`: the base name with
its extension stripped. -/
def nameNoExt (p : String) : String :=
  let b := baseName p
  let e := extName p
  String.mk (b.toList.take (b.toList.length - e.toList.length))

/-- Splits a string on `.` characters, as `String.prototype.split('.')`. -/
def splitDotsChars : List Char → List String
  | [] => [""]
  | c :: rest =>
      if c = '.' then "" :: splitDotsChars rest
      else
        match splitDotsChars rest with
        | [] => [String.mk [c]]
        | s :: ss => (String.mk (c :: s.toList)) :: ss

/-- `key.split('.')`. -/
def splitDots (s : String) : List String := splitDotsChars s.toList

/-- The three classification buckets of the directory scan. -/
inductive Layer where
  | dflt : Layer
  | ovr : Layer
  | tierM : Layer
deriving Repr

/-- The string JavaScript actually compares file names against in
`file.startsWith(this.override)`: when the override setting is disabled the
value is the boolean `false`, which `startsWith` coerces to the string
`"false"`. -/
def ovrPrefStr : Option String → String
  | some s => s
  | none => "false"

/-- The classification chain of `_load`'s scan loop, branch for branch:
default prefix first, then the (string-coerced) override value, then the tier
argument, else unmatched. -/
def classify (d : String) (o : Option String) (t : String) (f : String) : Option Layer :=
  if startsWithS f d then some .dflt
  else if startsWithS f (ovrPrefStr o) then some .ovr
  else if startsWithS f t then some .tierM
  else none

/-- A filesystem node: a directory (list of entry names), a regular file with
its parsed content, or something else (socket, FIFO, ...). -/
inductive FsNode where
  | dir : List String → FsNode
  | file : JValue → FsNode
  | other : FsNode
deriving Repr

/-- `fs.statSync`, total form: `none` models the thrown `ENOENT`. -/
def statN (fs : List (String × FsNode)) (p : String) : Option FsNode :=
  lookupKV fs p

/-- `fs.readdirSync`: succeeds only on a directory; `none` models the throw. -/
def readdirN (fs : List (String × FsNode)) (p : String) : Option (List String) :=
  match statN fs p with
  | some (.dir es) => some es
  | _ => none

/-- The extensions `_readFile` dispatches on. -/
def recognizedExts : List String := [".js", ".json", ".yml", ".yaml"]

/-- `Config._readFile`: parse by extension (`.js`/`.json` via `require`,
`.yml`/`.yaml` via the YAML parser — both modelled as the stored parsed
content), throwing on an unknown format and on an unreadable path. -/
def readFileM (fs : List (String × FsNode)) (p : String) : Except Unit JValue :=
  if extName p ∈ recognizedExts then
    match statN fs p with
    | some (.file c) => .ok c
    | _ => .error ()
  else .error ()

/-- The `_override` bookkeeping field: `undefined`, the boolean `false`, or a
prefix string. -/
inductive OvrVal where
  | unset : OvrVal
  | off : OvrVal
  | setv : String → OvrVal
deriving Repr

/-- The ambient, per-process inputs: filesystem, process environment, and the
values the minimist flags / environment variables resolve to (each collapsed
into its already-resolved form, since argument parsing is an excluded
collaborator).  `jp` is the `JSON.parse` oracle used by the overlay. -/
structure Ambient where
  fs : List (String × FsNode)
  env : List (String × String)
  dirDefault : String
  defaultPref : String
  ovrAmbient : Option String
  noenv : Bool
  delim : String
  cwd : String
  jp : String → Option JValue

/-- The live `Config` instance: the dynamic configuration properties, and the
underscore bookkeeping fields (`_sources`, `_tier`, `_dir`, `_override`,
`_default`). -/
structure CState where
  props : List (String × JValue)
  sources : List String
  tier : Option String
  dirCache : Option String
  ovrCache : OvrVal
  dfltCache : Option String
deriving Repr

/-- The observable effects of a call: the `change` event, the environment
overlay pass, and the invalid-path diagnostic of `addDefaultConfig`. -/
inductive Ev where
  | change : Ev
  | envApply : Ev
  | diag : Ev
deriving Repr

/-- The value the `override` getter returns: the cached string if truthy,
otherwise the ambient flag/environment fallback (which may itself be absent,
i.e. `false`). -/
def ovrEff (amb : Ambient) : OvrVal → Option String
  | .setv s => some s
  | _ => amb.ovrAmbient

/-- The `_override` field after the getter has run (the getter re-assigns the
computed value whenever the cached one is falsy). -/
def ovrAfterRead (amb : Ambient) (c : OvrVal) : OvrVal :=
  match ovrEff amb c with
  | some s => .setv s
  | none => .off

/-- `this._tier = this._tier || name`: keep a truthy cached tier, otherwise
take the given file name. -/
def tierOr (cur : Option String) (name : String) : Option String :=
  match cur with
  | some s => if s.isEmpty then some name else some s
  | none => some name

/-- Result of the scan loop of `_load`: the threaded instance state, the three
accumulated layers, and whether the loop ran to completion (`ok := false`
models a `_readFile` throw escaping into `_load`'s catch). -/
structure ScanOut where
  st : CState
  dcfg : JValue
  tcfg : JValue
  ocfg : JValue
  ok : Bool

/-- The scan loop of `_load`, file by file.  The `default` getter is read
first in every iteration (caching its resolution); the `override` getter runs
only when the default test fails, as the `else if` chain short-circuits.  A
classified file is read (abort on a read/format error, with the partial state
kept, as the exception lands in `_load`'s catch), the provisional tier is
recorded, and the file's path is appended to the source list. -/
def scanFiles (amb : Ambient) (tierArg dv : String) :
    List String → CState → JValue → JValue → JValue → ScanOut
  | [], st, d, t, o => ⟨st, d, t, o, true⟩
  | f :: fs, st, d, t, o =>
      let effD := st.dfltCache.getD amb.defaultPref
      let st1 := {st with dfltCache := some effD}
      let effO := ovrEff amb st1.ovrCache
      let st2 := if startsWithS f effD then st1
                 else {st1 with ovrCache := ovrAfterRead amb st1.ovrCache}
      match classify effD effO tierArg f with
      | some .dflt =>
          match readFileM amb.fs (pjoin dv f) with
          | .error _ => ⟨st2, d, t, o, false⟩
          | .ok c =>
              let st3 := {st2 with tier := tierOr st2.tier (nameNoExt f),
                                   sources := st2.sources ++ [pjoin dv f]}
              scanFiles amb tierArg dv fs st3 c t o
      | some .ovr =>
          match readFileM amb.fs (pjoin dv f) with
          | .error _ => ⟨st2, d, t, o, false⟩
          | .ok c =>
              let st3 := {st2 with sources := st2.sources ++ [pjoin dv f]}
              scanFiles amb tierArg dv fs st3 d t c
      | some .tierM =>
          match readFileM amb.fs (pjoin dv f) with
          | .error _ => ⟨st2, d, t, o, false⟩
          | .ok c =>
              let st3 := {st2 with tier := some (nameNoExt f),
                                   sources := st2.sources ++ [pjoin dv f]}
              scanFiles amb tierArg dv fs st3 d c o
      | none => scanFiles amb tierArg dv fs st2 d t o

/-- The default production tier name set. -/
def defProd : JValue :=
  .arr [.str "production", .str "prod", .str "pro", .str "p"]

/-- `this.prodNames = this.prodNames || [...]`: seed the production name set
when the current value is absent or falsy. -/
def seedProd (props : List (String × JValue)) : List (String × JValue) :=
  match lookupKV props "prodNames" with
  | some v => if jsTruthy v then props else setKV props "prodNames" defProd
  | none => props ++ [("prodNames", defProd)]

/-- The merge phase of `_load`: apply the override layer, then the tier layer,
then the default layer, each with the fill-missing `_apply`. -/
def mergeLayers (props : List (String × JValue)) (d t o : JValue) :
    List (String × JValue) :=
  applyKV (applyKV (applyKV props (propsOf o)) (propsOf t)) (propsOf d)

/-- `Config._load(tier)`: read the directory (caching the `dir` resolution),
scan and classify, merge the three layers, emit `change`; any exception is
caught, setting `_tier` to the requested value with no layers applied and no
event; finally seed `prodNames` in every case. -/
def loadPhase (amb : Ambient) (tierArg : String) (s : CState) : CState × List Ev :=
  let dv := s.dirCache.getD amb.dirDefault
  let s1 := {s with dirCache := some dv}
  match readdirN amb.fs dv with
  | none =>
      ({s1 with tier := some tierArg, props := seedProd s1.props}, [])
  | some files =>
      let out := scanFiles amb tierArg dv files s1 (.obj []) (.obj []) (.obj [])
      if out.ok then
        ({out.st with
            props := seedProd (mergeLayers out.st.props out.dcfg out.tcfg out.ocfg)},
         [.change])
      else
        ({out.st with tier := some tierArg, props := seedProd out.st.props}, [])

/-- The `tier` setter: `set tier (tier) { this._load(tier); }` — nothing but
the load sequence. -/
def setTier (amb : Ambient) (t : String) (s : CState) : CState × List Ev :=
  loadPhase amb t s

/-- `JSON.parse(x)` applied by the overlay: a string goes through the parse
oracle with the raw string as the catch fallback; a non-string argument (a
nested subtree) stringifies to something unparsable, so the catch assigns the
source value itself. -/
def jsonOr (jp : String → Option JValue) : JValue → JValue
  | .str e => (jp e).getD (.str e)
  | v => v

/-- Property read on an environment-tree node (`source[prop.toLowerCase()]`);
only object nodes carry modelled properties. -/
def envLookup (src : JValue) (k : String) : Option JValue :=
  match src with
  | .obj fs => lookupKV fs k
  | _ => none

/-- Property deletion on an environment-tree node. -/
def envErase (src : JValue) (k : String) : JValue :=
  match src with
  | .obj fs => .obj (eraseKV fs k)
  | v => v

/-- `Object.assign(target, source)` over an association-list target: existing
keys are overwritten in place, new keys appended in source order. -/
def objAssign (t : List (String × JValue)) (src : List (String × JValue)) :
    List (String × JValue) :=
  src.foldl (fun t kv => setKV t kv.1 kv.2) t

/-- The enumerable own entries `Object.assign` copies from a source value:
an object's entries, a string's character cells, an array's index cells;
primitives contribute nothing. -/
def assignEntries : JValue → List (String × JValue)
  | .obj fs => fs
  | .str s => (s.toList.enum.map fun p => (Nat.repr p.1, .str (String.mk [p.2])))
  | .arr xs => (xs.enum.map fun p => (Nat.repr p.1, p.2))
  | _ => []

/-- `Object.assign` onto an array target: only the numeric keys that fall
inside the array are applied (extension past the end and expando string keys
are outside the modelled value space). -/
def arrAssign (xs : List JValue) (entries : List (String × JValue)) : List JValue :=
  entries.foldl
    (fun xs kv => match toNatS kv.1 with
                  | some i => xs.set i kv.2
                  | none => xs) xs

mutual

/-- `Config._applyEnv(target, source)` on values of object type.  For an
object or array target: walk the target's enumerable properties, then
`Object.assign` the remaining source onto it.  A `null` target (also of
JavaScript type `'object'`) iterates nothing and then throws the
`Object.assign(null, ...)` TypeError, modelled as `.error`. -/
def applyEnvVal (jp : String → Option JValue) : JValue → JValue → Except Unit JValue
  | .obj tf, src => do
      let (tf', src') ← applyEnvGo jp tf src
      .ok (.obj (objAssign tf' (assignEntries src')))
  | .arr tx, src => do
      let (tx', src') ← applyEnvArr jp tx 0 src
      .ok (.arr (arrAssign tx' (assignEntries src')))
  | .null, _ => .error ()
  | t, _ => .ok t

/-- The `for (let prop in target)` loop of `_applyEnv` over an object's
entries: a truthy source entry at the lower-cased key replaces a
non-object target value by its JSON-parse-or-raw form, recurses into an
object-typed target value, and is deleted from the source; falsy or absent
entries leave the target entry alone. -/
def applyEnvGo (jp : String → Option JValue) :
    List (String × JValue) → JValue → Except Unit (List (String × JValue) × JValue)
  | [], src => .ok ([], src)
  | (k, tv) :: rest, src =>
      match envLookup src (toLowerS k) with
      | some sv =>
          if jsTruthy sv then do
            let tv' ← if isObjType tv then applyEnvVal jp tv sv else .ok (jsonOr jp sv)
            let (rest', src') ← applyEnvGo jp rest (envErase src (toLowerS k))
            .ok ((k, tv') :: rest', src')
          else do
            let (rest', src') ← applyEnvGo jp rest src
            .ok ((k, tv) :: rest', src')
      | none => do
          let (rest', src') ← applyEnvGo jp rest src
          .ok ((k, tv) :: rest', src')

/-- The same loop over an array target, whose `for..in` keys are the decimal
index strings. -/
def applyEnvArr (jp : String → Option JValue) :
    List JValue → Nat → JValue → Except Unit (List JValue × JValue)
  | [], _, src => .ok ([], src)
  | tv :: rest, i, src =>
      match envLookup src (Nat.repr i) with
      | some sv =>
          if jsTruthy sv then do
            let tv' ← if isObjType tv then applyEnvVal jp tv sv else .ok (jsonOr jp sv)
            let (rest', src') ← applyEnvArr jp rest (i + 1) (envErase src (Nat.repr i))
            .ok (tv' :: rest', src')
          else do
            let (rest', src') ← applyEnvArr jp rest (i + 1) src
            .ok ((tv) :: rest', src')
      | none => do
          let (rest', src') ← applyEnvArr jp rest (i + 1) src
          .ok ((tv) :: rest', src')

end

/-- Lower-case all environment variable names (later duplicates overwrite
earlier ones, as repeated object assignment would). -/
def sanitizeEnv (env : List (String × String)) : List (String × String) :=
  env.foldl (fun m kv => setKV m (toLowerS kv.1) kv.2) []

/-- One path insertion of the `flat` package's `unflatten`: descend through
existing object nodes, replacing anything else by a fresh object (numeric
array-index reconstruction is outside the modelled key space). -/
def insertPath : List (String × JValue) → List String → String → List (String × JValue)
  | m, [], _ => m
  | m, [k], v => setKV m k (.str v)
  | m, k :: ks, v =>
      match lookupKV m k with
      | some (.obj sub) => setKV m k (.obj (insertPath sub ks v))
      | _ => setKV m k (.obj (insertPath [] ks v))

/-- `unflatten` of the sanitized flat environment map on the configured
delimiter. -/
def unflattenKV (delim : String) (flat : List (String × String)) :
    List (String × JValue) :=
  flat.foldl (fun m kv => insertPath m (splitOnS kv.1 delim) kv.2) []

/-- The environment tree `_parseEnv` builds: lower-cased names, unflattened on
the delimiter, with the `'0'` key deleted. -/
def envTree (amb : Ambient) : List (String × JValue) :=
  eraseKV (unflattenKV amb.delim (sanitizeEnv amb.env)) "0"

/-- `Config._parseEnv()`: a no-op when disabled; otherwise build the
environment tree and apply it to the instance with `_applyEnv`, finishing
with the wholesale `Object.assign` of the unmatched remainder. -/
def parseEnvPhase (amb : Ambient) (s : CState) : Except Unit (CState × List Ev) :=
  if amb.noenv then .ok (s, [])
  else
    match applyEnvGo amb.jp s.props (.obj (envTree amb)) with
    | .error e => .error e
    | .ok (p, src') => .ok ({s with props := objAssign p (assignEntries src')}, [.envApply])

/-- The property-clearing loop of `reload`: delete every own enumerable
property whose name does not begin with an underscore. -/
def clearProps (props : List (String × JValue)) : List (String × JValue) :=
  props.filter (fun kv => startsWithS kv.1 "_")

/-- The state-reset prefix of `reload`: clear the non-underscore properties,
absolutize and store the directory, store the override argument (leaving
`_override` undefined when the argument is), reset the source list and
invalidate the cached tier. -/
def resetSt (amb : Ambient) (d : String) (o : Option String) (s : CState) : CState :=
  { props := clearProps s.props,
    sources := [],
    tier := none,
    dirCache := some (if isAbs d then d else pjoin amb.cwd d),
    ovrCache := (match o with | some x => .setv x | none => .unset),
    dfltCache := s.dfltCache }

/-- `Config.reload(tier, dir, override)`: the reset prefix, then the load
triggered through the tier setter, then the environment overlay. -/
def reloadSt (amb : Ambient) (t d : String) (o : Option String) (s : CState) :
    Except Unit (CState × List Ev) :=
  let r := setTier amb t (resetSt amb d o s)
  match parseEnvPhase amb r.1 with
  | .error e => .error e
  | .ok (s3, ev2) => .ok (s3, r.2 ++ ev2)

/-- The dotted-name reconstruction of `addDefaultConfig`:
`name.split('.').reduceRight((prev, curr) => ({[curr]: prev}), content)`. -/
def nestName (name : String) (c : JValue) : JValue :=
  (splitDots name).foldr (fun k acc => .obj [(k, acc)]) c

/-- The directory iteration of `addDefaultConfig`: each file with a
recognized extension is read, nested under its dot-split base name, applied
with the fill-missing merge, and its path appended to the source list; other
files are skipped; a read failure propagates (there is no catch). -/
def addDefaultFiles (amb : Ambient) (dv : String) :
    List String → CState → Except Unit CState
  | [], s => .ok s
  | f :: fs, s =>
      if extName f ∈ recognizedExts then
        match readFileM amb.fs (pjoin dv f) with
        | .error e => .error e
        | .ok c =>
            let frag := nestName (nameNoExt f) c
            addDefaultFiles amb dv fs
              {s with props := applyKV s.props (propsOf frag),
                      sources := s.sources ++ [pjoin dv f]}
      else addDefaultFiles amb dv fs s

/-- `Config.addDefaultConfig` with a string argument (path components already
joined): absolutize, `statSync` (a nonexistent path throws), then the
directory walk, the single-file nesting, or the invalid-path diagnostic; a
single `change` event is emitted at the end in every non-throwing branch. -/
def addDefaultStr (amb : Ambient) (s : CState) (p : String) :
    Except Unit (CState × List Ev) :=
  let dv := if isAbs p then p else pjoin amb.cwd p
  match statN amb.fs dv with
  | none => .error ()
  | some (.dir files) =>
      match addDefaultFiles amb dv files s with
      | .error e => .error e
      | .ok s' => .ok (s', [.change])
  | some (.file _) =>
      match readFileM amb.fs dv with
      | .error e => .error e
      | .ok c =>
          let frag := nestName (nameNoExt p) c
          .ok ({s with props := applyKV s.props (propsOf frag),
                       sources := s.sources ++ [dv]}, [.change])
  | some .other => .ok (s, [.diag, .change])

/-- `Config.addDefaultConfig` with an object argument: just the fill-missing
merge and the `change` event. -/
def addDefaultObj (s : CState) (c : JValue) : CState × List Ev :=
  ({s with props := applyKV s.props (propsOf c)}, [.change])

/-- Generic property read used by `appendValue`'s walk (`context[prop]`);
property access on primitives yields `undefined`, and index access on
arrays/strings is outside the modelled key space. -/
def propGetJ (v : JValue) (k : String) : Option JValue :=
  match v with
  | .obj fs => lookupKV fs k
  | _ => none

/-- Generic property write used by `appendValue`'s walk; writing a property
on a primitive throws in strict mode (class bodies are strict), modelled as
`.error` (array expando properties are outside the modelled value space). -/
def propSetJ (v : JValue) (k : String) (x : JValue) : Except Unit JValue :=
  match v with
  | .obj fs => .ok (.obj (setKV fs k x))
  | _ => .error ()

/-- The segment walk of `appendValue`.  Each segment is compared with the
final segment by string value (`prop != last`): an equal segment does not
descend and ensures `context[last]` is truthy by writing `[]` over a falsy
value; a different segment ensures a truthy `context[prop]` by writing `{}`
over a falsy value and descends.  With the segments exhausted, the final
step appends to an array value and wraps any other (necessarily truthy)
value in a fresh array in front of the new values. -/
def appendGo (last : String) (vals : List JValue) :
    JValue → List String → Except Unit JValue
  | v, [] =>
      match propGetJ v last with
      | some (.arr xs) => propSetJ v last (.arr (xs ++ vals))
      | some c => propSetJ v last (.arr (c :: vals))
      | none => propSetJ v last (.arr ((JValue.null) :: vals))
  | v, seg :: rest =>
      if seg = last then
        match propGetJ v seg with
        | some c =>
            if jsTruthy c then appendGo last vals v rest
            else do
              let v' ← propSetJ v seg (.arr [])
              appendGo last vals v' rest
        | none => do
            let v' ← propSetJ v seg (.arr [])
            appendGo last vals v' rest
      else
        match propGetJ v seg with
        | some c =>
            if jsTruthy c then do
              let sub ← appendGo last vals c rest
              propSetJ v seg sub
            else do
              let sub ← appendGo last vals (.obj []) rest
              propSetJ v seg sub
        | none => do
            let sub ← appendGo last vals (.obj []) rest
            propSetJ v seg sub

/-- `Config.appendValue(key, ...values)` from the revision that carries it:
a no-op without values; otherwise split the key on dots and run the walk on
the configuration object. -/
def appendValue (props : List (String × JValue)) (key : String) (vals : List JValue) :
    Except Unit (List (String × JValue)) :=
  if vals.isEmpty then .ok props
  else
    let segs := splitDots key
    let last := segs.getLastD ""
    match appendGo last vals (.obj props) segs with
    | .ok (.obj fs) => .ok fs
    | .ok v => .ok (propsOf v)
    | .error e => .error e

/-- A small executable model of the `JSON.parse` oracle, enough for the
witnesses: the literals `true`, `false`, `null`, and decimal naturals. -/
def jsonParseModel (s : String) : Option JValue :=
  if s = "true" then some (.bool true)
  else if s = "false" then some (.bool false)
  else if s = "null" then some .null
  else (toNatS s).map (fun n => .num (Int.ofNat n))

/-! ### Association-list lemmas -/

theorem lookupKV_setKV_self {α : Type} (l : List (String × α)) (k : String) (v : α) :
    lookupKV (setKV l k v) k = some v := by
  induction l with
  | nil => simp [setKV, lookupKV]
  | cons hd tl ih =>
      obtain ⟨k', v'⟩ := hd
      by_cases h : k' = k
      · subst h; simp [setKV, lookupKV]
      · simp [setKV, lookupKV, h, ih]

theorem lookupKV_setKV_ne {α : Type} (l : List (String × α)) (k k' : String) (v : α)
    (h : k' ≠ k) : lookupKV (setKV l k v) k' = lookupKV l k' := by
  have hkk : k ≠ k' := fun h' => h h'.symm
  induction l with
  | nil => simp [setKV, lookupKV, hkk]
  | cons hd tl ih =>
      obtain ⟨k₀, v₀⟩ := hd
      by_cases h0 : k₀ = k
      · subst h0
        simp [setKV, lookupKV, hkk]
      · simp only [setKV, if_neg h0, lookupKV]
        by_cases h1 : k₀ = k'
        · simp [h1]
        · simp [h1, ih]

theorem lookupKV_append_left {α : Type} {l : List (String × α)} {k : String} {v : α}
    (m : List (String × α)) (h : lookupKV l k = some v) :
    lookupKV (l ++ m) k = some v := by
  induction l with
  | nil => simp [lookupKV] at h
  | cons hd tl ih =>
      obtain ⟨k₀, v₀⟩ := hd
      by_cases h0 : k₀ = k
      · subst h0; simp_all [lookupKV]
      · simp only [lookupKV, if_neg h0] at h
        simpa [lookupKV, h0] using ih h

theorem lookupKV_append_none {α : Type} {l : List (String × α)} {k : String}
    (m : List (String × α)) (h : lookupKV l k = none) :
    lookupKV (l ++ m) k = lookupKV m k := by
  induction l with
  | nil => simp
  | cons hd tl ih =>
      obtain ⟨k₀, v₀⟩ := hd
      by_cases h0 : k₀ = k
      · simp [lookupKV, h0] at h
      · simp only [lookupKV, if_neg h0] at h
        simpa [lookupKV, h0] using ih h

theorem lookupKV_eraseKV_ne {α : Type} (l : List (String × α)) (k k' : String)
    (h : k' ≠ k) : lookupKV (eraseKV l k) k' = lookupKV l k' := by
  have hkk : k ≠ k' := fun h' => h h'.symm
  induction l with
  | nil => simp [eraseKV]
  | cons hd tl ih =>
      obtain ⟨k₀, v₀⟩ := hd
      by_cases h0 : k₀ = k
      · subst h0
        simp [eraseKV, lookupKV, hkk]
      · simp only [eraseKV, if_neg h0, lookupKV]
        by_cases h1 : k₀ = k'
        · simp [h1]
        · simp [h1, ih]

theorem mem_keys_eraseKV {α : Type} (l : List (String × α)) (k k' : String)
    (h : k' ∈ (eraseKV l k).map Prod.fst) : k' ∈ l.map Prod.fst := by
  induction l with
  | nil => simp [eraseKV] at h
  | cons hd tl ih =>
      obtain ⟨k₀, v₀⟩ := hd
      simp only [eraseKV] at h
      split at h
      · simp only [List.map_cons, List.mem_cons]
        exact Or.inr h
      · simp only [List.map_cons, List.mem_cons] at h ⊢
        rcases h with h | h
        · exact Or.inl h
        · exact Or.inr (ih h)

theorem lookupKV_mem {α : Type} {l : List (String × α)} {k : String} {v : α}
    (h : lookupKV l k = some v) : (k, v) ∈ l := by
  induction l with
  | nil => simp [lookupKV] at h
  | cons hd tl ih =>
      obtain ⟨k₀, v₀⟩ := hd
      simp only [lookupKV] at h
      split at h
      · rename_i h0
        cases h
        subst h0
        simp
      · exact List.mem_cons_of_mem _ (ih h)

theorem lookupKV_none_of_not_mem {α : Type} {l : List (String × α)} {k : String}
    (h : k ∉ l.map Prod.fst) : lookupKV l k = none := by
  induction l with
  | nil => simp [lookupKV]
  | cons hd tl ih =>
      obtain ⟨k₀, v₀⟩ := hd
      simp only [List.map_cons, List.mem_cons, not_or] at h
      have h0 : k₀ ≠ k := fun h' => h.1 h'.symm
      simp [lookupKV, h0, ih h.2]

theorem setKV_setKV {α : Type} (l : List (String × α)) (k : String) (v w : α) :
    setKV (setKV l k v) k w = setKV l k w := by
  induction l with
  | nil => simp [setKV]
  | cons hd tl ih =>
      obtain ⟨k₀, v₀⟩ := hd
      by_cases h0 : k₀ = k
      · simp [setKV, h0]
      · simp [setKV, h0, ih]

/-! ### Fill-missing merge preservation -/

/-- The deep fill-missing merge never changes an existing scalar leaf: any
non-object, non-array value reachable through object keys in the target is
still there, unchanged, after `defaultsDeep`. -/
theorem ddVal_pres_scalar (p : List String) :
    ∀ t s v, getPath t p = some v → isScalar v = true → getPath (ddVal t s) p = some v := by
  induction p with
  | nil =>
      intro t s v h hs
      simp only [getPath, Option.some.injEq] at h
      subst h
      cases t <;> simp_all [isScalar] <;> cases s <;> rfl
  | cons k ks ih =>
      intro t s v h hs
      cases t with
      | obj tf =>
          simp only [getPath] at h
          cases hl : lookupKV tf k with
          | none => rw [hl] at h; cases h
          | some tv =>
              rw [hl] at h
              cases s with
              | obj sf =>
                  have inner : ∀ (sf' tf' : List (String × JValue)) (tv' : JValue),
                      lookupKV tf' k = some tv' → getPath tv' ks = some v →
                      ∃ tw, lookupKV (ddObj tf' sf') k = some tw ∧ getPath tw ks = some v := by
                    intro sf'
                    induction sf' with
                    | nil => intro tf' tv' h1 h2; exact ⟨tv', h1, h2⟩
                    | cons hd rest ihr =>
                        intro tf' tv' h1 h2
                        obtain ⟨k₂, sv⟩ := hd
                        show ∃ tw, lookupKV (ddObj _ rest) k = some tw ∧ _
                        by_cases hk : k₂ = k
                        · subst hk
                          rw [show (match lookupKV tf' k₂ with
                                    | none => tf' ++ [(k₂, sv)]
                                    | some tv => setKV tf' k₂ (ddVal tv sv)) =
                                setKV tf' k₂ (ddVal tv' sv) from by rw [h1]]
                          exact ihr (setKV tf' k₂ (ddVal tv' sv)) (ddVal tv' sv)
                            (lookupKV_setKV_self _ _ _) (ih tv' sv v h2 hs)
                        · cases hl2 : lookupKV tf' k₂ with
                          | none =>
                              exact ihr (tf' ++ [(k₂, sv)]) tv'
                                (lookupKV_append_left _ h1) h2
                          | some tv₂ =>
                              refine ihr (setKV tf' k₂ (ddVal tv₂ sv)) tv' ?_ h2
                              rw [lookupKV_setKV_ne _ _ _ _ (fun h' => hk h'.symm)]
                              exact h1
                  obtain ⟨tw, hw1, hw2⟩ := inner sf tf tv hl h
                  simp only [ddVal, getPath, hw1]
                  exact hw2
              | null => simp only [ddVal, getPath, hl]; exact h
              | bool b => simp only [ddVal, getPath, hl]; exact h
              | num n => simp only [ddVal, getPath, hl]; exact h
              | str s' => simp only [ddVal, getPath, hl]; exact h
              | arr sx => simp only [ddVal, getPath, hl]; exact h
      | null => simp [getPath] at h
      | bool b => simp [getPath] at h
      | num n => simp [getPath] at h
      | str s' => simp [getPath] at h
      | arr tx => simp [getPath] at h

/-- One `_apply` insertion never changes an existing scalar leaf. -/
theorem applyIns_pres_scalar (st : List (String × JValue)) (k : String) (v : JValue)
    (p : List String) (w : JValue) (h : getPathKV st p = some w)
    (hs : isScalar w = true) : getPathKV (applyIns st k v) p = some w := by
  cases p with
  | nil =>
      simp only [getPathKV, getPath, Option.some.injEq] at h
      rw [← h] at hs
      simp [isScalar] at hs
  | cons k' ks =>
      simp only [getPathKV, getPath] at h ⊢
      cases hl : lookupKV st k' with
      | none => rw [hl] at h; cases h
      | some tv =>
          rw [hl] at h
          unfold applyIns
          cases hl0 : lookupKV st k with
          | none =>
              rw [lookupKV_append_left _ hl]
              exact h
          | some tv₀ =>
              by_cases hk : k = k'
              · subst hk
                rw [hl0] at hl
                cases hl
                rw [lookupKV_setKV_self]
                exact ddVal_pres_scalar ks tv v w h hs
              · rw [lookupKV_setKV_ne _ _ _ _ (fun h' => hk h'.symm), hl]
                exact h

/-- `_apply` of a whole layer never changes an existing scalar leaf. -/
theorem applyKV_pres_scalar (l : List (String × JValue)) :
    ∀ st p w, getPathKV st p = some w → isScalar w = true →
      getPathKV (applyKV st l) p = some w := by
  induction l with
  | nil => intro st p w h _; exact h
  | cons hd rest ih =>
      intro st p w h hs
      obtain ⟨k, v⟩ := hd
      exact ih (applyIns st k v) p w (applyIns_pres_scalar st k v p w h hs) hs

/-- `_apply` leaves keys outside the layer untouched. -/
theorem applyKV_lookup_notmem (l : List (String × JValue)) :
    ∀ st k, k ∉ l.map Prod.fst → lookupKV (applyKV st l) k = lookupKV st k := by
  induction l with
  | nil => intro st k _; rfl
  | cons hd rest ih =>
      intro st k hk
      obtain ⟨k₀, v₀⟩ := hd
      simp only [List.map_cons, List.mem_cons, not_or] at hk
      have h0 : k₀ ≠ k := fun h' => hk.1 h'.symm
      rw [show applyKV st ((k₀, v₀) :: rest) = applyKV (applyIns st k₀ v₀) rest from rfl,
          ih _ k hk.2]
      unfold applyIns
      cases hl : lookupKV st k₀ with
      | none =>
          cases hkl : lookupKV st k with
          | none => rw [lookupKV_append_none _ hkl]; simp [lookupKV, h0]
          | some v => exact lookupKV_append_left _ hkl
      | some tv => rw [lookupKV_setKV_ne _ _ _ _ hk.1]

/-- `_apply` assigns a layer key directly when the key is absent on the
object. -/
theorem applyKV_lookup_absent (l : List (String × JValue)) :
    ∀ st k v, lookupKV st k = none → lookupKV l k = some v → keysNodup l →
      lookupKV (applyKV st l) k = some v := by
  induction l with
  | nil => intro st k v _ h _; simp [lookupKV] at h
  | cons hd rest ih =>
      intro st k v hst hl hnd
      obtain ⟨k₀, v₀⟩ := hd
      simp only [keysNodup, List.map_cons, List.nodup_cons] at hnd
      by_cases hk : k₀ = k
      · subst hk
        have hv : v₀ = v := by simpa [lookupKV] using hl
        subst hv
        rw [show applyKV st ((k₀, v₀) :: rest) = applyKV (applyIns st k₀ v₀) rest from rfl,
            applyKV_lookup_notmem rest _ k₀ hnd.1]
        unfold applyIns
        rw [hst, lookupKV_append_none _ hst]
        simp [lookupKV]
      · simp only [lookupKV, if_neg hk] at hl
        have h0 : k ≠ k₀ := fun h' => hk h'.symm
        rw [show applyKV st ((k₀, v₀) :: rest) = applyKV (applyIns st k₀ v₀) rest from rfl]
        refine ih _ k v ?_ hl hnd.2
        unfold applyIns
        cases hl0 : lookupKV st k₀ with
        | none => rw [lookupKV_append_none _ hst]; simp [lookupKV, hk]
        | some tv => rw [lookupKV_setKV_ne _ _ _ _ h0]; exact hst

/-- `_apply` deep-merges a layer key into an existing value. -/
theorem applyKV_lookup_present (l : List (String × JValue)) :
    ∀ st k tv v, lookupKV st k = some tv → lookupKV l k = some v → keysNodup l →
      lookupKV (applyKV st l) k = some (ddVal tv v) := by
  induction l with
  | nil => intro st k tv v _ h _; simp [lookupKV] at h
  | cons hd rest ih =>
      intro st k tv v hst hl hnd
      obtain ⟨k₀, v₀⟩ := hd
      simp only [keysNodup, List.map_cons, List.nodup_cons] at hnd
      by_cases hk : k₀ = k
      · subst hk
        have hv : v₀ = v := by simpa [lookupKV] using hl
        subst hv
        rw [show applyKV st ((k₀, v₀) :: rest) = applyKV (applyIns st k₀ v₀) rest from rfl,
            applyKV_lookup_notmem rest _ k₀ hnd.1]
        unfold applyIns
        rw [hst, lookupKV_setKV_self]
      · simp only [lookupKV, if_neg hk] at hl
        have h0 : k ≠ k₀ := fun h' => hk h'.symm
        rw [show applyKV st ((k₀, v₀) :: rest) = applyKV (applyIns st k₀ v₀) rest from rfl]
        refine ih _ k tv v ?_ hl hnd.2
        unfold applyIns
        cases hl0 : lookupKV st k₀ with
        | none => exact lookupKV_append_left _ hst
        | some tv₀ => rw [lookupKV_setKV_ne _ _ _ _ h0]; exact hst

/-- A filter that keeps entries by a key predicate ignores `setKV` at a key
the predicate rejects. -/
theorem filter_setKV_neg (l : List (String × JValue)) (k : String) (v : JValue)
    (u : String → Bool) (hk : u k = false) :
    (setKV l k v).filter (fun kv => u kv.1) = l.filter (fun kv => u kv.1) := by
  induction l with
  | nil => simp [setKV, hk]
  | cons hd tl ih =>
      obtain ⟨k₀, v₀⟩ := hd
      by_cases h0 : k₀ = k
      · subst h0; simp [setKV, List.filter, hk]
      · simp only [setKV, if_neg h0, List.filter]
        cases h1 : u k₀ <;> simp [h1, ih]


/-! ### Path lemmas -/

theorem takeWhile_sep (p : Char → Bool) (hp : p '/' = false) (w : List Char) :
    ∀ u : List Char, (u ++ '/' :: w).takeWhile p = u.takeWhile p := by
  intro u
  induction u with
  | nil => simp [List.takeWhile, hp]
  | cons c u ih =>
      simp only [List.cons_append, List.takeWhile_cons]
      cases hc : p c
      · rfl
      · simp [ih]

/-- `path.basename` sees only the part after the last separator, so joining a
directory in front does not change it. -/
theorem baseName_pjoin (a b : String) : baseName (pjoin a b) = baseName b := by
  unfold baseName pjoin
  have hdata : (a ++ "/" ++ b).toList = a.toList ++ '/' :: b.toList := by
    simp [String.toList, String.data_append]
  rw [hdata]
  have hrev : (a.toList ++ '/' :: b.toList).reverse =
      b.toList.reverse ++ '/' :: a.toList.reverse := by
    simp
  rw [hrev, takeWhile_sep _ (by decide)]

/-- Extension inspection commutes with joining a directory in front. -/
theorem extName_pjoin (a b : String) : extName (pjoin a b) = extName b := by
  unfold extName
  rw [baseName_pjoin]

/-! ### Claims -/

/-- The fresh configuration state (a just-constructed instance before any
load). -/
def cstate0 : CState := ⟨[], [], none, none, .unset, none⟩

/-- C1: during a load cycle the three layers are applied to the live object
in the order override, tier, default (first conjunct, the merge phase of
`_load`); applying a layer assigns a top-level key directly when it is
currently undefined (second conjunct) and otherwise deep-merges with the
fill-missing `defaultsDeep` (third conjunct); no application ever overwrites
an already-set scalar leaf (fourth conjunct); hence for a key absent on the
object, a leaf set by the override layer survives the tier and default
applications — the highest-precedence layer wins (fifth conjunct). -/
theorem claim1_layer_precedence (st ovl til dfl : List (String × JValue)) :
    (∀ d t o, mergeLayers st d t o =
        applyKV (applyKV (applyKV st (propsOf o)) (propsOf t)) (propsOf d)) ∧
    (∀ k v, lookupKV st k = none → lookupKV ovl k = some v → keysNodup ovl →
        lookupKV (applyKV st ovl) k = some v) ∧
    (∀ k tv v, lookupKV st k = some tv → lookupKV ovl k = some v → keysNodup ovl →
        lookupKV (applyKV st ovl) k = some (ddVal tv v)) ∧
    (∀ p w, getPathKV st p = some w → isScalar w = true →
        getPathKV (applyKV st ovl) p = some w) ∧
    (∀ k v p w, lookupKV st k = none → lookupKV ovl k = some v → keysNodup ovl →
        getPath v p = some w → isScalar w = true →
        getPathKV (applyKV (applyKV (applyKV st ovl) til) dfl) (k :: p) = some w) := by
  refine ⟨fun d t o => rfl,
          fun k v h1 h2 h3 => applyKV_lookup_absent ovl st k v h1 h2 h3,
          fun k tv v h1 h2 h3 => applyKV_lookup_present ovl st k tv v h1 h2 h3,
          fun p w h1 h2 => applyKV_pres_scalar ovl st p w h1 h2,
          fun k v p w h1 h2 h3 h4 h5 => ?_⟩
  have hov : lookupKV (applyKV st ovl) k = some v :=
    applyKV_lookup_absent ovl st k v h1 h2 h3
  have hpath : getPathKV (applyKV st ovl) (k :: p) = some w := by
    simp only [getPathKV, getPath, hov]
    exact h4
  exact applyKV_pres_scalar dfl _ _ w
    (applyKV_pres_scalar til _ _ w hpath h5) h5

/-- Witness for C1 at concrete layers. -/
theorem claim1_layer_precedence_witness :
    lookupKV (applyKV [] [("a", JValue.num 1)]) "a" = some (.num 1) ∧
    lookupKV (applyKV [("b", JValue.num 5)] [("b", JValue.num 6)]) "b" =
      some (ddVal (.num 5) (.num 6)) ∧
    getPathKV (applyKV (applyKV (applyKV [] [("a", JValue.num 1)])
      [("a", JValue.num 2)]) [("a", JValue.num 3), ("b", JValue.num 4)]) ["a"] =
      some (.num 1) := by
  have h1 := claim1_layer_precedence [] [("a", JValue.num 1)] [("a", JValue.num 2)]
    [("a", JValue.num 3), ("b", JValue.num 4)]
  have h2 := claim1_layer_precedence [("b", JValue.num 5)] [("b", JValue.num 6)] [] []
  exact ⟨h1.2.1 "a" (.num 1) rfl rfl (by simp [keysNodup]),
         h2.2.2.1 "b" (.num 5) (.num 6) rfl rfl (by simp [keysNodup]),
         h1.2.2.2.2 "a" (.num 1) [] (.num 1) rfl rfl (by simp [keysNodup]) rfl rfl⟩

/-- C3 (amended): the classification chain is deterministic with priority
default, then override, then tier — but the override comparison uses the
string coercion of the override setting, which is the literal `"false"` when
the override is disabled; so with override disabled a file is still
classified as override exactly when its name starts with `"false"`. -/
theorem claim3_classify_priority (d t f : String) (o : Option String) :
    (startsWithS f d = true → classify d o t f = some .dflt) ∧
    (startsWithS f d = false → startsWithS f (ovrPrefStr o) = true →
        classify d o t f = some .ovr) ∧
    (startsWithS f d = false → startsWithS f (ovrPrefStr o) = false →
        startsWithS f t = true → classify d o t f = some .tierM) ∧
    (startsWithS f d = false → startsWithS f (ovrPrefStr o) = false →
        startsWithS f t = false → classify d o t f = none) ∧
    ovrPrefStr none = "false" := by
  refine ⟨fun h1 => by simp [classify, h1],
          fun h1 h2 => by simp [classify, h1, h2],
          fun h1 h2 h3 => by simp [classify, h1, h2, h3],
          fun h1 h2 h3 => by simp [classify, h1, h2, h3],
          rfl⟩

/-- Witness for C3 on concrete file names. -/
theorem claim3_classify_priority_witness :
    classify "default." (some "local") "d" "local.js" = some Layer.ovr ∧
    classify "default." (some "local") "d" "development.js" = some Layer.tierM ∧
    classify "default." (some "local") "d" "default.json" = some Layer.dflt ∧
    classify "default." (some "local") "d" "readme.txt" = none := by
  refine ⟨(claim3_classify_priority "default." "d" "local.js" (some "local")).2.1 rfl rfl,
          (claim3_classify_priority "default." "d" "development.js"
            (some "local")).2.2.1 rfl rfl rfl,
          (claim3_classify_priority "default." "d" "default.json"
            (some "local")).1 rfl,
          (claim3_classify_priority "default." "d" "readme.txt"
            (some "local")).2.2.2.1 rfl rfl rfl⟩

/-- Filesystem and settings for the C3 counterexample: override disabled, a
file named `false.json` that matches neither the default prefix nor the
requested tier. -/
def ambC3 : Ambient :=
  { fs := [("/d", .dir ["false.json"]), ("/d/false.json", .file (.obj [("k", .num 1)]))],
    env := [], dirDefault := "/d", defaultPref := "default.",
    ovrAmbient := none, noenv := true, delim := "_", cwd := "/c",
    jp := jsonParseModel }

/-- C3 counterexample: with the override prefix disabled, the claim says no
file is classified as override (this one matches no prefix, so it should be
ignored) — yet `false.json` is classified as override, and a full load cycle
merges its contents into the configuration. -/
theorem claim3_cex :
    classify "default." none "none" "false.json" = some Layer.ovr ∧
    (some Layer.ovr ≠ (none : Option Layer)) ∧
    lookupKV ((loadPhase ambC3 "none" cstate0).1).props "k" = some (.num 1) := by
  exact ⟨rfl, by simp, rfl⟩

/-- C7 (amended): a file that matches a classification prefix but has an
unrecognized extension does not raise to the caller — but it is not simply
skipped either: the `_readFile` throw lands in `_load`'s catch, so the scan
aborts (first conjunct; the threaded state keeps its properties, sources and
layers), and the whole load cycle applies no layers at all, sets the tier to
the requested value, seeds `prodNames` and emits no change event (second
conjunct).  Only files matching no prefix are silently skipped. -/
theorem claim7_unknown_ext_aborts (amb : Ambient) (ta dv f : String)
    (rest : List String) (st : CState) (d t o : JValue) (L : Layer)
    (s : CState) (files : List String) (out : ScanOut) :
    (classify (st.dfltCache.getD amb.defaultPref) (ovrEff amb st.ovrCache) ta f =
        some L →
      extName f ∉ recognizedExts →
      (scanFiles amb ta dv (f :: rest) st d t o).ok = false ∧
      (scanFiles amb ta dv (f :: rest) st d t o).st.props = st.props ∧
      (scanFiles amb ta dv (f :: rest) st d t o).st.sources = st.sources ∧
      (scanFiles amb ta dv (f :: rest) st d t o).dcfg = d ∧
      (scanFiles amb ta dv (f :: rest) st d t o).tcfg = t ∧
      (scanFiles amb ta dv (f :: rest) st d t o).ocfg = o) ∧
    (readdirN amb.fs (s.dirCache.getD amb.dirDefault) = some files →
      scanFiles amb ta (s.dirCache.getD amb.dirDefault) files
        {s with dirCache := some (s.dirCache.getD amb.dirDefault)}
        (.obj []) (.obj []) (.obj []) = out →
      out.ok = false →
      loadPhase amb ta s =
        ({out.st with tier := some ta, props := seedProd out.st.props}, [])) := by
  constructor
  · intro hcl hext
    have hread : readFileM amb.fs (pjoin dv f) = .error () := by
      simp [readFileM, extName_pjoin, hext]
    simp only [scanFiles, hcl, hread]
    cases L <;>
      exact ⟨rfl,
        by cases hsw : startsWithS f (st.dfltCache.getD amb.defaultPref) <;> simp [hsw],
        by cases hsw : startsWithS f (st.dfltCache.getD amb.defaultPref) <;> simp [hsw],
        rfl, rfl, rfl⟩
  · intro hdir hscan hok
    simp only [loadPhase, hdir, hscan, hok]
    simp

/-- Filesystem for the C7 counterexample and witness: the directory holds
`a.txt` (classified for tier `a`, unknown extension) and then `default.json`. -/
def ambC7 : Ambient :=
  { fs := [("/d", .dir ["a.txt", "default.json"]),
           ("/d/a.txt", .file (.obj [("z", .num 9)])),
           ("/d/default.json", .file (.obj [("k", .num 1)]))],
    env := [], dirDefault := "/d", defaultPref := "default.",
    ovrAmbient := none, noenv := true, delim := "_", cwd := "/c",
    jp := jsonParseModel }

/-- The dummy `ScanOut` used to instantiate unneeded binders in the C7
witness. -/
def scanOut0 : ScanOut := ⟨cstate0, .obj [], .obj [], .obj [], true⟩

/-- Witness for C7 on a concrete scan. -/
theorem claim7_unknown_ext_aborts_witness :
    (scanFiles ambC7 "a" "/d" ["a.txt", "default.json"] cstate0
      (.obj []) (.obj []) (.obj [])).ok = false ∧
    loadPhase ambC7 "a" cstate0 =
      ({(scanFiles ambC7 "a" "/d" ["a.txt", "default.json"]
          {cstate0 with dirCache := some "/d"} (.obj []) (.obj []) (.obj [])).st with
          tier := some "a",
          props := seedProd (scanFiles ambC7 "a" "/d" ["a.txt", "default.json"]
            {cstate0 with dirCache := some "/d"} (.obj []) (.obj []) (.obj [])).st.props},
       []) := by
  constructor
  · exact ((claim7_unknown_ext_aborts ambC7 "a" "/d" "a.txt" ["default.json"] cstate0
      (.obj []) (.obj []) (.obj []) Layer.tierM cstate0 [] scanOut0).1 rfl
      (by decide)).1
  · exact (claim7_unknown_ext_aborts ambC7 "a" "/d" "a.txt" [] cstate0
      (.obj []) (.obj []) (.obj []) Layer.tierM cstate0 ["a.txt", "default.json"] _).2
      rfl rfl (by rfl)

/-- C7 counterexample: the claim promises that the remaining classified files
are still parsed and merged, but after `a.txt` (tier-classified, unknown
extension) the load aborts: `default.json`'s key never appears, no source is
recorded and no change event fires. -/
theorem claim7_cex :
    lookupKV ((loadPhase ambC7 "a" cstate0).1).props "k" = none ∧
    ((loadPhase ambC7 "a" cstate0).1).sources = [] ∧
    (loadPhase ambC7 "a" cstate0).2 = [] := by
  exact ⟨rfl, rfl, rfl⟩

/-- C8 (amended): a path that exists but is neither a file nor a directory is
reported as a diagnostic, leaves the configuration unchanged and still emits
the change event without raising (first conjunct) — but a *nonexistent* path
makes `fs.statSync` throw, and the error propagates to the caller (second
conjunct). -/
theorem claim8_invalid_path (amb : Ambient) (s : CState) (p : String) :
    (statN amb.fs (if isAbs p then p else pjoin amb.cwd p) = some .other →
      addDefaultStr amb s p = .ok (s, [.diag, .change])) ∧
    (statN amb.fs (if isAbs p then p else pjoin amb.cwd p) = none →
      addDefaultStr amb s p = .error ()) := by
  constructor <;> intro h <;> simp [addDefaultStr, h]

/-- Filesystem for the C8 witness: a socket-like node. -/
def ambC8 : Ambient :=
  { fs := [("/sock", .other)],
    env := [], dirDefault := "/d", defaultPref := "default.",
    ovrAmbient := none, noenv := true, delim := "_", cwd := "/c",
    jp := jsonParseModel }

/-- Witness for C8. -/
theorem claim8_invalid_path_witness :
    addDefaultStr ambC8 cstate0 "/sock" = .ok (cstate0, [.diag, .change]) ∧
    addDefaultStr ambC8 cstate0 "/nope" = .error () := by
  exact ⟨(claim8_invalid_path ambC8 cstate0 "/sock").1 rfl,
         (claim8_invalid_path ambC8 cstate0 "/nope").2 rfl⟩

/-- C8 counterexample: the claim includes nonexistent paths among those that
"return without raising", but `statSync` throws on a path that does not
resolve, and `addDefaultConfig` has no catch: the call raises. -/
theorem claim8_cex :
    addDefaultStr ambC8 cstate0 "/nope" = .error () ∧
    ∀ r, addDefaultStr ambC8 cstate0 "/nope" ≠ .ok r := by
  refine ⟨rfl, fun r h => ?_⟩
  rw [show addDefaultStr ambC8 cstate0 "/nope" = .error () from rfl] at h
  exact Except.noConfusion h

/-- C9 (amended): `appendValue` is a no-op without values (first conjunct).
On a single-segment key: an absent key yields exactly the new values (second
conjunct), an array value is appended to (third conjunct), a truthy scalar is
wrapped in front of the new values (fourth conjunct) — but a *falsy* current
value (`0`, `""`, `false`, `null`) is first overwritten with `[]` by the
walk's ensure step, so the previous value is dropped (fifth conjunct).  On a
two-segment key with distinct segments, a missing intermediate object is
created (sixth conjunct); a non-final segment that is string-equal to the
final segment is treated like the final segment and not descended into
(seventh conjunct). -/
theorem claim9_append_value (props : List (String × JValue)) (key : String)
    (vals : List JValue) (k a b : String) :
    (appendValue props key [] = .ok props) ∧
    (vals ≠ [] → splitDots key = [k] → lookupKV props k = none →
      appendValue props key vals = .ok (setKV props k (.arr vals))) ∧
    (∀ xs, vals ≠ [] → splitDots key = [k] → lookupKV props k = some (.arr xs) →
      appendValue props key vals = .ok (setKV props k (.arr (xs ++ vals)))) ∧
    (∀ v, vals ≠ [] → splitDots key = [k] → lookupKV props k = some v →
      jsTruthy v = true → isScalar v = true →
      appendValue props key vals = .ok (setKV props k (.arr (v :: vals)))) ∧
    (∀ v, vals ≠ [] → splitDots key = [k] → lookupKV props k = some v →
      jsTruthy v = false →
      appendValue props key vals = .ok (setKV props k (.arr vals))) ∧
    (vals ≠ [] → splitDots key = [a, b] → a ≠ b → lookupKV props a = none →
      appendValue props key vals = .ok (setKV props a (.obj [(b, .arr vals)]))) ∧
    (vals ≠ [] → splitDots key = [a, a] → lookupKV props a = none →
      appendValue props key vals = .ok (setKV props a (.arr vals))) := by
  refine ⟨by simp [appendValue], ?_, ?_, ?_, ?_, ?_, ?_⟩
  · intro hv hsp hlk
    simp only [appendValue, hsp, List.getLastD]
    rw [if_neg (by simpa using hv)]
    simp [appendGo, propGetJ, propSetJ, hlk, lookupKV_setKV_self, setKV_setKV,
      Bind.bind, Except.bind]
  · intro xs hv hsp hlk
    simp only [appendValue, hsp, List.getLastD]
    rw [if_neg (by simpa using hv)]
    simp [appendGo, propGetJ, propSetJ, hlk, jsTruthy, Bind.bind, Except.bind]
  · intro v hv hsp hlk ht hsc
    simp only [appendValue, hsp, List.getLastD]
    rw [if_neg (by simpa using hv)]
    cases v <;> simp_all [appendGo, propGetJ, propSetJ, jsTruthy, isScalar,
      Bind.bind, Except.bind]
  · intro v hv hsp hlk ht
    simp only [appendValue, hsp, List.getLastD]
    rw [if_neg (by simpa using hv)]
    simp [appendGo, propGetJ, propSetJ, hlk, ht, lookupKV_setKV_self, setKV_setKV,
      Bind.bind, Except.bind]
  · intro hv hsp hab hlk
    simp only [appendValue, hsp, List.getLastD]
    rw [if_neg (by simpa using hv)]
    simp [appendGo, propGetJ, propSetJ, hab, hlk, lookupKV, setKV,
      Bind.bind, Except.bind]
  · intro hv hsp hlk
    simp only [appendValue, hsp, List.getLastD]
    rw [if_neg (by simpa using hv)]
    simp [appendGo, propGetJ, propSetJ, hlk, jsTruthy, lookupKV_setKV_self,
      setKV_setKV, Bind.bind, Except.bind]

/-- Witness for C9: the three append examples of the specification (the
first through the two-segment clause, the others through the single-segment
clauses). -/
theorem claim9_append_value_witness :
    appendValue [] "a.b" [.num 5] = .ok [("a", .obj [("b", .arr [.num 5])])] ∧
    appendValue [("b", JValue.num 1)] "b" [.num 5] =
      .ok [("b", .arr [.num 1, .num 5])] ∧
    appendValue [("b", JValue.arr [.num 3])] "b" [.num 4, .num 5] =
      .ok [("b", .arr [.num 3, .num 4, .num 5])] := by
  refine ⟨?_, ?_, ?_⟩
  · exact (claim9_append_value [] "a.b" [.num 5] "x" "a" "b").2.2.2.2.2.1
      (by simp) rfl (by decide) rfl
  · exact (claim9_append_value [("b", JValue.num 1)] "b" [.num 5] "b" "x"
      "y").2.2.2.1 (.num 1) (by simp) rfl rfl rfl rfl
  · exact (claim9_append_value [("b", JValue.arr [.num 3])] "b" [.num 4, .num 5]
      "b" "x" "y").2.2.1 [.num 3] (by simp) rfl rfl

/-- C9 counterexample: on an existing *falsy* scalar `0`, the claim predicts
`[0, 5]`, but the walk's `if (!context[prop]) context[prop] = []` replaces the
`0` with an empty array first, so the result is `[5]` and the old value is
lost. -/
theorem claim9_cex :
    appendValue [("a", .obj [("b", .num 0)])] "a.b" [.num 5] =
      .ok [("a", .obj [("b", .arr [.num 5])])] ∧
    JValue.arr [.num 5] ≠ .arr [.num 0, .num 5] := by
  exact ⟨rfl, by simp⟩

/-- C2 (amended): assigning the tier directly runs only the `_load` sequence
(first conjunct: the setter is exactly the load phase), whereas `reload` is
the composite of the reset step, that same tier assignment and the
environment overlay (second conjunct); the two calls therefore coincide
exactly on a state already in reset form for the given arguments with the
overlay disabled (third conjunct) — in general the direct assignment clears
no configuration keys, keeps the source list, directory and override
settings, and never runs the environment overlay. -/
theorem claim2_set_tier (amb : Ambient) (t d : String) (o : Option String)
    (s : CState) :
    (setTier amb t s = loadPhase amb t s) ∧
    (reloadSt amb t d o s =
      match parseEnvPhase amb (setTier amb t (resetSt amb d o s)).1 with
      | .error e => .error e
      | .ok (s3, ev2) => .ok (s3, (setTier amb t (resetSt amb d o s)).2 ++ ev2)) ∧
    (resetSt amb d o s = s → amb.noenv = true →
      reloadSt amb t d o s = .ok (setTier amb t s)) := by
  refine ⟨rfl, rfl, fun hreset hno => ?_⟩
  simp [reloadSt, parseEnvPhase, hno, hreset]

/-- Settings and state for the C2 counterexample: an empty configuration
directory, the overlay disabled, and a live object that already carries a
key. -/
def ambC2 : Ambient :=
  { fs := [("/d", .dir [])],
    env := [], dirDefault := "/d", defaultPref := "default.",
    ovrAmbient := none, noenv := true, delim := "_", cwd := "/c",
    jp := jsonParseModel }

/-- The pre-state of the C2 counterexample. -/
def sC2 : CState := {cstate0 with props := [("a", JValue.num 1)]}

/-- C2 counterexample: from a state holding the key `a`, assigning the tier
directly keeps `a`, while `reload` with the same tier (and the state's own
directory) clears it — the two resulting configuration states differ. -/
theorem claim2_cex :
    lookupKV ((setTier ambC2 "t" sC2).1).props "a" = some (.num 1) ∧
    (reloadSt ambC2 "t" "/d" none sC2).map
      (fun r => lookupKV r.1.props "a") = .ok none := by
  exact ⟨rfl, rfl⟩

/-- The already-reset state used by the C2 witness. -/
def sC2w : CState := resetSt ambC2 "/d" none cstate0

/-- Witness for C2: on a state already in reset form with the overlay
disabled, direct tier assignment and `reload` agree. -/
theorem claim2_set_tier_witness :
    resetSt ambC2 "/d" none sC2w = sC2w ∧
    reloadSt ambC2 "t" "/d" none sC2w = .ok (setTier ambC2 "t" sC2w) := by
  exact ⟨rfl, (claim2_set_tier ambC2 "t" "/d" none sC2w).2.2 rfl rfl⟩

/-- Source accounting and no-overwrite for the directory walk of
`addDefaultConfig`: a successful walk appends exactly the recognized files'
full paths to the source list and never changes an existing scalar leaf. -/
theorem addDefaultFiles_ok (amb : Ambient) (dv : String) :
    ∀ (files : List String) (s s' : CState),
      addDefaultFiles amb dv files s = .ok s' →
      s'.sources = s.sources ++
        (files.filter (fun f => decide (extName f ∈ recognizedExts))).map (pjoin dv) ∧
      (∀ pth w, getPathKV s.props pth = some w → isScalar w = true →
        getPathKV s'.props pth = some w) := by
  intro files
  induction files with
  | nil =>
      intro s s' h
      cases h
      exact ⟨by simp, fun pth w hw _ => hw⟩
  | cons f rest ih =>
      intro s s' h
      simp only [addDefaultFiles] at h
      by_cases hf : extName f ∈ recognizedExts
      · rw [if_pos hf] at h
        cases hr : readFileM amb.fs (pjoin dv f) with
        | error e => rw [hr] at h; cases h
        | ok c =>
            rw [hr] at h
            obtain ⟨hsrc, hpres⟩ := ih _ _ h
            constructor
            · rw [hsrc]
              simp [hf, List.filter]
            · intro pth w hw hs
              exact hpres pth w
                (applyKV_pres_scalar (propsOf (nestName (nameNoExt f) c)) _ pth w hw hs) hs
      · rw [if_neg hf] at h
        obtain ⟨hsrc, hpres⟩ := ih _ _ h
        constructor
        · rw [hsrc]
          simp [hf, List.filter]
        · exact hpres

/-- The extension of a path is the extension of the argument it was
absolutized from. -/
theorem extName_abs (amb : Ambient) (p : String) :
    extName (if isAbs p then p else pjoin amb.cwd p) = extName p := by
  by_cases h : isAbs p = true
  · simp [h]
  · simp only [Bool.not_eq_true] at h
    simp [h, extName_pjoin]

/-- C5: for a directory argument, a successful `addDefaultConfig` walk merges
each recognized file nested under its dot-split base name, appends exactly
those files' absolute paths to the source list, never overwrites an existing
scalar leaf, and emits a single change event after all fragments (first
conjunct); the dotted-name reconstruction right-folds the name segments
around the content, so a base name `a.b` contributes `{a: {b: content}}`
(second conjunct); a single-file argument merges the one fragment nested
under the file's dot-split base name, appends its absolute path, and emits
the single change event (third conjunct). -/
theorem claim5_add_default (amb : Ambient) (s : CState) (p nm : String)
    (dv : String) (files : List String) (c : JValue) (a b : String) :
    (dv = (if isAbs p then p else pjoin amb.cwd p) →
     statN amb.fs dv = some (.dir files) →
     ∀ s', addDefaultFiles amb dv files s = .ok s' →
       addDefaultStr amb s p = .ok (s', [.change]) ∧
       s'.sources = s.sources ++
         (files.filter (fun f => decide (extName f ∈ recognizedExts))).map (pjoin dv) ∧
       (∀ pth w, getPathKV s.props pth = some w → isScalar w = true →
          getPathKV s'.props pth = some w)) ∧
    (splitDots nm = [a, b] → nestName nm c = .obj [(a, .obj [(b, c)])]) ∧
    (dv = (if isAbs p then p else pjoin amb.cwd p) →
     statN amb.fs dv = some (.file c) →
     extName p ∈ recognizedExts →
     addDefaultStr amb s p =
       .ok ({s with props := applyKV s.props (propsOf (nestName (nameNoExt p) c)),
                    sources := s.sources ++ [dv]}, [.change])) := by
  refine ⟨fun hdv hstat s' hfiles => ?_, fun hsp => ?_, fun hdv hstat hext => ?_⟩
  · subst hdv
    obtain ⟨hsrc, hpres⟩ := addDefaultFiles_ok amb _ files s s' hfiles
    refine ⟨?_, hsrc, hpres⟩
    simp only [addDefaultStr, hstat, hfiles]
  · unfold nestName
    rw [hsp]
    rfl
  · have hx : extName dv ∈ recognizedExts := by
      rw [hdv, extName_abs]; exact hext
    have hread : readFileM amb.fs dv = .ok c := by
      simp [readFileM, hx, hstat]
    subst hdv
    simp only [addDefaultStr, hstat, hread]

/-- Filesystem for the C5 witness: a module configuration directory and a
single file. -/
def ambC5 : Ambient :=
  { fs := [("/m", .dir ["sec.sub.js", "notes.txt"]),
           ("/m/sec.sub.js", .file (.obj [("flag", .bool true)])),
           ("/single.json", .file (.obj [("x", .num 2)]))],
    env := [], dirDefault := "/d", defaultPref := "default.",
    ovrAmbient := none, noenv := true, delim := "_", cwd := "/c",
    jp := jsonParseModel }

/-- The pre-state of the C5 witness, holding a scalar leaf the walk must not
overwrite. -/
def sC5 : CState := {cstate0 with props := [("sec", .obj [("keep", .num 7)])]}

/-- Witness for C5 on a concrete directory and file. -/
theorem claim5_add_default_witness :
    addDefaultStr ambC5 sC5 "/m" =
      .ok ({sC5 with
              props := [("sec", .obj [("keep", .num 7),
                                      ("sub", .obj [("flag", .bool true)])])],
              sources := ["/m/sec.sub.js"]}, [.change]) ∧
    nestName "sec.sub" (.obj [("flag", .bool true)]) =
      .obj [("sec", .obj [("sub", .obj [("flag", .bool true)])])] ∧
    addDefaultStr ambC5 cstate0 "/single.json" =
      .ok ({cstate0 with props := [("single", .obj [("x", .num 2)])],
                         sources := ["/single.json"]}, [.change]) ∧
    getPathKV ((addDefaultStr ambC5 sC5 "/m").toOption.get rfl).1.props
      ["sec", "keep"] = some (.num 7) := by
  have h := claim5_add_default ambC5 sC5 "/m" "sec.sub" "/m" ["sec.sub.js", "notes.txt"]
    (.obj [("flag", .bool true)]) "sec" "sub"
  have h2 := claim5_add_default ambC5 cstate0 "/single.json" "x" "/single.json" []
    (.obj [("x", .num 2)]) "x" "y"
  refine ⟨?_, h.2.1 rfl, ?_, ?_⟩
  · exact (h.1 rfl rfl _ rfl).1
  · exact h2.2.2 rfl rfl (by decide)
  · exact rfl

/-! ### Frame and presence lemmas -/

theorem lookupKV_filter_pos (props : List (String × JValue)) (u : String → Bool)
    (k : String) (hk : u k = true) :
    lookupKV (props.filter (fun kv => u kv.1)) k = lookupKV props k := by
  induction props with
  | nil => simp
  | cons hd tl ih =>
      obtain ⟨k₀, v₀⟩ := hd
      by_cases h0 : k₀ = k
      · subst h0
        simp [List.filter, hk, lookupKV]
      · cases hu : u k₀ <;> simp [List.filter, hu, lookupKV, h0, ih]

theorem lookupKV_filter_neg (props : List (String × JValue)) (u : String → Bool)
    (k : String) (hk : u k = false) :
    lookupKV (props.filter (fun kv => u kv.1)) k = none := by
  induction props with
  | nil => simp [lookupKV]
  | cons hd tl ih =>
      obtain ⟨k₀, v₀⟩ := hd
      by_cases h0 : k₀ = k
      · subst h0
        simp [List.filter, hk, ih]
      · cases hu : u k₀ <;> simp [List.filter, hu, lookupKV, h0, ih]

theorem setKV_isSome (l : List (String × JValue)) (k' : String) (v : JValue)
    (k : String) (h : (lookupKV l k).isSome = true) :
    (lookupKV (setKV l k' v) k).isSome = true := by
  by_cases hk : k' = k
  · subst hk; rw [lookupKV_setKV_self]; rfl
  · rw [lookupKV_setKV_ne _ _ _ _ (fun h' => hk h'.symm)]; exact h

theorem objAssign_isSome (src : List (String × JValue)) :
    ∀ t k, (lookupKV t k).isSome = true →
      (lookupKV (objAssign t src) k).isSome = true := by
  induction src with
  | nil => intro t k h; exact h
  | cons hd tl ih =>
      intro t k h
      exact ih _ k (setKV_isSome t hd.1 hd.2 k h)

theorem applyIns_isSome (st : List (String × JValue)) (k' : String) (v : JValue)
    (k : String) (h : (lookupKV st k).isSome = true) :
    (lookupKV (applyIns st k' v) k).isSome = true := by
  unfold applyIns
  cases hl : lookupKV st k' with
  | none =>
      cases hk : lookupKV st k with
      | none => rw [hk] at h; cases h
      | some w => rw [lookupKV_append_left _ hk]; rfl
  | some tv => exact setKV_isSome st k' (ddVal tv v) k h

theorem applyKV_isSome (l : List (String × JValue)) :
    ∀ st k, (lookupKV st k).isSome = true →
      (lookupKV (applyKV st l) k).isSome = true := by
  induction l with
  | nil => intro st k h; exact h
  | cons hd tl ih =>
      intro st k h
      exact ih _ k (applyIns_isSome st hd.1 hd.2 k h)

theorem seedProd_isSome (props : List (String × JValue)) (k : String)
    (h : (lookupKV props k).isSome = true) :
    (lookupKV (seedProd props) k).isSome = true := by
  cases hl : lookupKV props "prodNames" with
  | none =>
      have he : seedProd props = props ++ [("prodNames", defProd)] := by
        unfold seedProd; rw [hl]
      rw [he]
      cases hk : lookupKV props k with
      | none => rw [hk] at h; cases h
      | some w => rw [lookupKV_append_left _ hk]; rfl
  | some v =>
      have he : seedProd props =
          if jsTruthy v = true then props else setKV props "prodNames" defProd := by
        unfold seedProd; rw [hl]
      rw [he]
      cases ht : jsTruthy v
      · rw [if_neg (by simp)]
        exact setKV_isSome props "prodNames" defProd k h
      · simpa using h

theorem scanFiles_props (amb : Ambient) (ta dv : String) :
    ∀ (files : List String) (st : CState) (d t o : JValue),
      (scanFiles amb ta dv files st d t o).st.props = st.props := by
  intro files
  induction files with
  | nil => intro st d t o; rfl
  | cons f rest ih =>
      intro st d t o
      simp only [scanFiles]
      split
      · split
        · split <;> rfl
        · rw [ih]; split <;> rfl
      · split
        · split <;> rfl
        · rw [ih]; split <;> rfl
      · split
        · split <;> rfl
        · rw [ih]; split <;> rfl
      · rw [ih]; split <;> rfl

theorem keys_lookup_isSome (k : String) :
    ∀ (a b : List (String × JValue)), a.map Prod.fst = b.map Prod.fst →
      (lookupKV a k).isSome = (lookupKV b k).isSome := by
  intro a
  induction a with
  | nil =>
      intro b h
      rw [show b = [] from by simpa using h.symm]
  | cons hd ta ih =>
      intro b h
      cases b with
      | nil => simp at h
      | cons hb tb =>
          simp only [List.map_cons, List.cons.injEq] at h
          obtain ⟨k₀, v₀⟩ := hd
          obtain ⟨k₁, v₁⟩ := hb
          simp only at h
          obtain ⟨hk, ht⟩ := h
          subst hk
          by_cases h0 : k₀ = k
          · simp [lookupKV, h0]
          · simp only [lookupKV, if_neg h0]
            exact ih tb ht

theorem applyEnvGo_keys (jp : String → Option JValue) :
    ∀ (tgt : List (String × JValue)) (src : JValue) (out : List (String × JValue))
      (src' : JValue), applyEnvGo jp tgt src = .ok (out, src') →
      out.map Prod.fst = tgt.map Prod.fst := by
  intro tgt
  induction tgt with
  | nil =>
      intro src out src' h
      simp only [applyEnvGo] at h
      cases h
      rfl
  | cons hd rest ih =>
      intro src out src' h
      obtain ⟨k, tv⟩ := hd
      simp only [applyEnvGo, Bind.bind, Except.bind] at h
      repeat' split at h
      all_goals try exact Except.noConfusion h
      all_goals (cases h; rename_i heq; simp [ih _ _ _ heq])


theorem parseEnvPhase_isSome (amb : Ambient) (s s' : CState) (ev : List Ev)
    (k : String) (h : parseEnvPhase amb s = .ok (s', ev))
    (hk : (lookupKV s.props k).isSome = true) :
    (lookupKV s'.props k).isSome = true := by
  unfold parseEnvPhase at h
  by_cases hn : amb.noenv = true
  · rw [if_pos hn] at h
    cases h
    exact hk
  · rw [if_neg hn] at h
    cases hgo : applyEnvGo amb.jp s.props (.obj (envTree amb)) with
    | error e => rw [hgo] at h; cases h
    | ok pr =>
        rw [hgo] at h
        obtain ⟨p, src'⟩ := pr
        cases h
        refine objAssign_isSome _ p k ?_
        rw [keys_lookup_isSome k p s.props (applyEnvGo_keys amb.jp s.props _ p src' hgo)]
        exact hk

theorem loadPhase_eq_none (amb : Ambient) (t : String) (s : CState)
    (hd : readdirN amb.fs (s.dirCache.getD amb.dirDefault) = none) :
    loadPhase amb t s =
      ({s with dirCache := some (s.dirCache.getD amb.dirDefault),
               tier := some t, props := seedProd s.props}, []) := by
  simp only [loadPhase, hd]

theorem loadPhase_eq_scan (amb : Ambient) (t : String) (s : CState)
    (files : List String) (out : ScanOut)
    (hd : readdirN amb.fs (s.dirCache.getD amb.dirDefault) = some files)
    (hout : scanFiles amb t (s.dirCache.getD amb.dirDefault) files
      {s with dirCache := some (s.dirCache.getD amb.dirDefault)}
      (.obj []) (.obj []) (.obj []) = out) :
    loadPhase amb t s =
      if out.ok then
        ({out.st with
            props := seedProd (mergeLayers out.st.props out.dcfg out.tcfg out.ocfg)},
         [.change])
      else
        ({out.st with tier := some t, props := seedProd out.st.props}, []) := by
  simp only [loadPhase, hd, hout]

theorem loadPhase_isSome (amb : Ambient) (t : String) (s : CState) (k : String)
    (hk : (lookupKV s.props k).isSome = true) :
    (lookupKV ((loadPhase amb t s).1).props k).isSome = true := by
  cases hd : readdirN amb.fs (s.dirCache.getD amb.dirDefault) with
  | none =>
      rw [loadPhase_eq_none amb t s hd]
      exact seedProd_isSome _ k hk
  | some files =>
      rw [loadPhase_eq_scan amb t s files _ hd rfl]
      cases hok : (scanFiles amb t (s.dirCache.getD amb.dirDefault) files
          {s with dirCache := some (s.dirCache.getD amb.dirDefault)}
          (.obj []) (.obj []) (.obj [])).ok
      · rw [if_neg (by simp)]
        refine seedProd_isSome _ k ?_
        rw [scanFiles_props]
        exact hk
      · rw [if_pos rfl]
        refine seedProd_isSome _ k ?_
        unfold mergeLayers
        refine applyKV_isSome _ _ k (applyKV_isSome _ _ k (applyKV_isSome _ _ k ?_))
        rw [scanFiles_props]
        exact hk

theorem clearProps_idem (p : List (String × JValue)) :
    clearProps (clearProps p) = clearProps p := by
  simp [clearProps, List.filter_filter]

/-- C10: `reload`'s clearing loop deletes exactly the own enumerable
properties whose names do not begin with an underscore: an underscore key
keeps its value through the clear (first conjunct), any other key is removed
(second conjunct), an underscore key present before `reload` is still
present in the state the next load cycle produces (third conjunct), and the
whole of `reload` is insensitive to the non-underscore part of the prior
properties (fourth conjunct). -/
theorem claim10_underscore_survival (amb : Ambient) (t d : String) (o : Option String)
    (s : CState) (k : String) :
    (startsWithS k "_" = true → lookupKV (clearProps s.props) k = lookupKV s.props k) ∧
    (startsWithS k "_" = false → lookupKV (clearProps s.props) k = none) ∧
    (∀ s' ev, startsWithS k "_" = true → (lookupKV s.props k).isSome = true →
      reloadSt amb t d o s = .ok (s', ev) → (lookupKV s'.props k).isSome = true) ∧
    (reloadSt amb t d o s = reloadSt amb t d o {s with props := clearProps s.props}) := by
  refine ⟨fun hk => lookupKV_filter_pos s.props (fun x => startsWithS x "_") k hk,
          fun hk => lookupKV_filter_neg s.props (fun x => startsWithS x "_") k hk,
          fun s' ev hk hsome hrun => ?_, ?_⟩
  · have hclear : (lookupKV (resetSt amb d o s).props k).isSome = true := by
      show (lookupKV (clearProps s.props) k).isSome = true
      unfold clearProps
      rw [lookupKV_filter_pos s.props (fun x => startsWithS x "_") k hk]
      exact hsome
    have hload := loadPhase_isSome amb t (resetSt amb d o s) k hclear
    simp only [reloadSt] at hrun
    cases hpe : parseEnvPhase amb (setTier amb t (resetSt amb d o s)).1 with
    | error e => rw [hpe] at hrun; cases hrun
    | ok pr =>
        rw [hpe] at hrun
        obtain ⟨s3, ev2⟩ := pr
        cases hrun
        exact parseEnvPhase_isSome amb _ _ _ k hpe hload
  · unfold reloadSt
    rw [show resetSt amb d o {s with props := clearProps s.props} = resetSt amb d o s from by
      unfold resetSt
      rw [show ({s with props := clearProps s.props} : CState).props =
            clearProps s.props from rfl, clearProps_idem]]

/-- Settings and state for the C10 witness. -/
def sC10 : CState := {cstate0 with props := [("_x", JValue.num 1), ("y", JValue.num 2)]}

/-- The result state of the C10 witness reload. -/
def rC10 : CState := ⟨[("_x", JValue.num 1), ("prodNames", defProd)], [], none,
  some "/d", .unset, none⟩

/-- Witness for C10: an underscore key survives the clear and the whole
reload; a plain key is cleared. -/
theorem claim10_underscore_survival_witness :
    lookupKV (clearProps sC10.props) "_x" = some (.num 1) ∧
    lookupKV (clearProps sC10.props) "y" = none ∧
    (lookupKV rC10.props "_x").isSome = true := by
  have h := claim10_underscore_survival ambC2 "t" "/d" none sC10 "_x"
  have h2 := claim10_underscore_survival ambC2 "t" "/d" none sC10 "y"
  refine ⟨?_, h2.2.1 rfl, h.2.2.1 rC10 [Ev.change] rfl rfl rfl⟩
  rw [h.1 rfl]
  rfl

theorem lookupKV_eraseKV_self {α : Type} (l : List (String × α)) (k : String)
    (hnd : (l.map Prod.fst).Nodup) : lookupKV (eraseKV l k) k = none := by
  induction l with
  | nil => simp [eraseKV, lookupKV]
  | cons hd tl ih =>
      obtain ⟨k₀, v₀⟩ := hd
      simp only [List.map_cons, List.nodup_cons] at hnd
      by_cases h0 : k₀ = k
      · subst h0
        simp only [eraseKV, if_pos rfl]
        exact lookupKV_none_of_not_mem hnd.1
      · simp only [eraseKV, if_neg h0, lookupKV, if_neg h0]
        exact ih hnd.2

theorem lookupKV_eraseKV_none {α : Type} (l : List (String × α)) (k k' : String)
    (h : lookupKV l k' = none) : lookupKV (eraseKV l k) k' = none := by
  induction l with
  | nil => simp [eraseKV, lookupKV]
  | cons hd tl ih =>
      obtain ⟨k₀, v₀⟩ := hd
      by_cases h0 : k₀ = k'
      · subst h0; simp [lookupKV] at h
      · simp only [lookupKV, if_neg h0] at h
        by_cases h1 : k₀ = k
        · simp [eraseKV, h1, h]
        · simp only [eraseKV, if_neg h1, lookupKV, if_neg h0]
          exact ih h

theorem keys_eraseKV_sublist {α : Type} (l : List (String × α)) (k : String) :
    ((eraseKV l k).map Prod.fst).Sublist (l.map Prod.fst) := by
  induction l with
  | nil => simp [eraseKV]
  | cons hd tl ih =>
      obtain ⟨k₀, v₀⟩ := hd
      by_cases h0 : k₀ = k
      · simp only [eraseKV, if_pos h0, List.map_cons]
        exact (List.sublist_cons_self _ _)
      · simp only [eraseKV, if_neg h0, List.map_cons]
        exact ih.cons₂ _

theorem nodup_eraseKV {α : Type} (l : List (String × α)) (k : String)
    (hnd : (l.map Prod.fst).Nodup) : ((eraseKV l k).map Prod.fst).Nodup :=
  hnd.sublist (keys_eraseKV_sublist l k)

theorem lookupKV_isSome_of_mem {α : Type} (l : List (String × α)) (k : String)
    (h : k ∈ l.map Prod.fst) : (lookupKV l k).isSome = true := by
  induction l with
  | nil => simp at h
  | cons hd tl ih =>
      obtain ⟨k₀, v₀⟩ := hd
      by_cases h0 : k₀ = k
      · simp [lookupKV, h0]
      · simp only [List.map_cons, List.mem_cons] at h
        rcases h with h | h
        · exact absurd h.symm h0
        · simp only [lookupKV, if_neg h0]
          exact ih h

theorem objAssign_lookup_notmem (src : List (String × JValue)) :
    ∀ t k, k ∉ src.map Prod.fst → lookupKV (objAssign t src) k = lookupKV t k := by
  induction src with
  | nil => intro t k _; rfl
  | cons hd tl ih =>
      intro t k hk
      obtain ⟨k₀, v₀⟩ := hd
      simp only [List.map_cons, List.mem_cons, not_or] at hk
      rw [show objAssign t ((k₀, v₀) :: tl) = objAssign (setKV t k₀ v₀) tl from rfl,
          ih _ k hk.2]
      exact lookupKV_setKV_ne t k₀ k v₀ hk.1

theorem objAssign_lookup_mem (src : List (String × JValue)) :
    ∀ t k v, (src.map Prod.fst).Nodup → lookupKV src k = some v →
      lookupKV (objAssign t src) k = some v := by
  induction src with
  | nil => intro t k v _ h; simp [lookupKV] at h
  | cons hd tl ih =>
      intro t k v hnd h
      obtain ⟨k₀, v₀⟩ := hd
      simp only [List.map_cons, List.nodup_cons] at hnd
      by_cases h0 : k₀ = k
      · subst h0
        have hv : v₀ = v := by simpa [lookupKV] using h
        subst hv
        rw [show objAssign t ((k₀, v₀) :: tl) = objAssign (setKV t k₀ v₀) tl from rfl,
            objAssign_lookup_notmem tl _ k₀ hnd.1, lookupKV_setKV_self]
      · simp only [lookupKV, if_neg h0] at h
        rw [show objAssign t ((k₀, v₀) :: tl) = objAssign (setKV t k₀ v₀) tl from rfl]
        exact ih _ k v hnd.2 h

/-- Step equation of the `_applyEnv` loop: an absent source entry leaves
the target entry and the source alone. -/
theorem applyEnvGo_cons_none (jp : String → Option JValue) (k₀ : String)
    (tv₀ : JValue) (rest : List (String × JValue)) (m : List (String × JValue))
    (hl : lookupKV m (toLowerS k₀) = none) :
    applyEnvGo jp ((k₀, tv₀) :: rest) (.obj m) =
      match applyEnvGo jp rest (.obj m) with
      | .error e => .error e
      | .ok pr => .ok ((k₀, tv₀) :: pr.1, pr.2) := by
  simp only [applyEnvGo, envLookup, Bind.bind, Except.bind, hl]
  cases applyEnvGo jp rest (JValue.obj m) <;> rfl

/-- Step equation of the `_applyEnv` loop: a falsy source entry is skipped
(and in particular not deleted from the source). -/
theorem applyEnvGo_cons_falsy (jp : String → Option JValue) (k₀ : String)
    (tv₀ : JValue) (rest : List (String × JValue)) (m : List (String × JValue))
    (sv : JValue) (hl : lookupKV m (toLowerS k₀) = some sv)
    (htr : jsTruthy sv = false) :
    applyEnvGo jp ((k₀, tv₀) :: rest) (.obj m) =
      match applyEnvGo jp rest (.obj m) with
      | .error e => .error e
      | .ok pr => .ok ((k₀, tv₀) :: pr.1, pr.2) := by
  simp only [applyEnvGo, envLookup, Bind.bind, Except.bind, hl, htr,
    Bool.false_eq_true, if_false]
  cases applyEnvGo jp rest (JValue.obj m) <;> rfl

/-- Step equation of the `_applyEnv` loop: a truthy source entry transforms
the target entry and is deleted from the source before the loop continues. -/
theorem applyEnvGo_cons_truthy (jp : String → Option JValue) (k₀ : String)
    (tv₀ : JValue) (rest : List (String × JValue)) (m : List (String × JValue))
    (sv tv' : JValue) (hl : lookupKV m (toLowerS k₀) = some sv)
    (htr : jsTruthy sv = true)
    (hv : (if isObjType tv₀ = true then applyEnvVal jp tv₀ sv
           else .ok (jsonOr jp sv)) = .ok tv') :
    applyEnvGo jp ((k₀, tv₀) :: rest) (.obj m) =
      match applyEnvGo jp rest (.obj (eraseKV m (toLowerS k₀))) with
      | .error e => .error e
      | .ok pr => .ok ((k₀, tv') :: pr.1, pr.2) := by
  simp only [applyEnvGo, envLookup, envErase, Bind.bind, Except.bind, hl, htr]
  rw [if_pos trivial]
  by_cases hob : isObjType tv₀ = true
  · rw [if_pos hob]
    rw [if_pos hob] at hv
    rw [hv]
    cases applyEnvGo jp rest (JValue.obj (eraseKV m (toLowerS k₀))) <;> rfl
  · rw [if_neg hob]
    rw [if_neg hob] at hv
    have hj : jsonOr jp sv = tv' := by injection hv
    rw [hj]
    cases applyEnvGo jp rest (JValue.obj (eraseKV m (toLowerS k₀))) <;> rfl

/-- Step equation of the `_applyEnv` loop: a failing recursion propagates
the TypeError. -/
theorem applyEnvGo_cons_truthy_err (jp : String → Option JValue) (k₀ : String)
    (tv₀ : JValue) (rest : List (String × JValue)) (m : List (String × JValue))
    (sv : JValue) (e : Unit) (hl : lookupKV m (toLowerS k₀) = some sv)
    (htr : jsTruthy sv = true)
    (hv : (if isObjType tv₀ = true then applyEnvVal jp tv₀ sv
           else .ok (jsonOr jp sv)) = .error e) :
    applyEnvGo jp ((k₀, tv₀) :: rest) (.obj m) = .error e := by
  simp only [applyEnvGo, envLookup, envErase, Bind.bind, Except.bind, hl, htr]
  rw [if_pos trivial]
  by_cases hob : isObjType tv₀ = true
  · rw [if_pos hob]
    rw [if_pos hob] at hv
    rw [hv]
  · rw [if_neg hob]
    rw [if_neg hob] at hv
    exact Except.noConfusion hv

/-- What the `_applyEnv` loop does to the source tree: it only deletes
entries at the lower-cased target keys, so everything else keeps its value;
absent keys stay absent, key distinctness is preserved, and no key is
added. -/
theorem applyEnvGo_src (jp : String → Option JValue) :
    ∀ (tgt : List (String × JValue)) (m out : List (String × JValue)) (src' : JValue),
      applyEnvGo jp tgt (.obj m) = .ok (out, src') →
      ∃ m', src' = .obj m' ∧
        (∀ q, (∀ k' ∈ tgt.map Prod.fst, toLowerS k' ≠ q) →
          lookupKV m' q = lookupKV m q) ∧
        (∀ q, lookupKV m q = none → lookupKV m' q = none) ∧
        ((m.map Prod.fst).Nodup → (m'.map Prod.fst).Nodup) ∧
        (∀ q, q ∈ m'.map Prod.fst → q ∈ m.map Prod.fst) := by
  intro tgt
  induction tgt with
  | nil =>
      intro m out src' h
      simp only [applyEnvGo] at h
      cases h
      exact ⟨m, rfl, fun q _ => rfl, fun q hq => hq, id, fun q hq => hq⟩
  | cons hd rest ih =>
      intro m out src' h
      obtain ⟨k₀, tv₀⟩ := hd
      cases hl : lookupKV m (toLowerS k₀) with
      | none =>
          rw [applyEnvGo_cons_none jp k₀ tv₀ rest m hl] at h
          cases hr : applyEnvGo jp rest (.obj m) with
          | error e => rw [hr] at h; exact Except.noConfusion h
          | ok pr =>
              obtain ⟨rest', src₂⟩ := pr
              rw [hr] at h
              cases h
              obtain ⟨m', he, hpres, hnone, hnd, hsub⟩ := ih m rest' src₂ hr
              exact ⟨m', he,
                fun q hq => hpres q (fun k' hk' => hq k' (List.mem_cons_of_mem _ hk')),
                hnone, hnd, hsub⟩
      | some sv =>
          cases htr : jsTruthy sv with
          | false =>
              rw [applyEnvGo_cons_falsy jp k₀ tv₀ rest m sv hl htr] at h
              cases hr : applyEnvGo jp rest (.obj m) with
              | error e => rw [hr] at h; exact Except.noConfusion h
              | ok pr =>
                  obtain ⟨rest', src₂⟩ := pr
                  rw [hr] at h
                  cases h
                  obtain ⟨m', he, hpres, hnone, hnd, hsub⟩ := ih m rest' src₂ hr
                  exact ⟨m', he,
                    fun q hq => hpres q (fun k' hk' => hq k' (List.mem_cons_of_mem _ hk')),
                    hnone, hnd, hsub⟩
          | true =>
              cases hv : (if isObjType tv₀ = true then applyEnvVal jp tv₀ sv
                          else .ok (jsonOr jp sv)) with
              | error e =>
                  rw [applyEnvGo_cons_truthy_err jp k₀ tv₀ rest m sv e hl htr hv] at h
                  exact Except.noConfusion h
              | ok tv' =>
                  rw [applyEnvGo_cons_truthy jp k₀ tv₀ rest m sv tv' hl htr hv] at h
                  cases hr : applyEnvGo jp rest (.obj (eraseKV m (toLowerS k₀))) with
                  | error e => rw [hr] at h; exact Except.noConfusion h
                  | ok pr =>
                      obtain ⟨rest', src₂⟩ := pr
                      rw [hr] at h
                      cases h
                      obtain ⟨m', he, hpres, hnone, hnd, hsub⟩ := ih _ rest' src₂ hr
                      refine ⟨m', he, ?_, ?_, ?_, ?_⟩
                      · intro q hq
                        rw [hpres q (fun k' hk' => hq k' (List.mem_cons_of_mem _ hk'))]
                        exact lookupKV_eraseKV_ne m (toLowerS k₀) q
                          (fun h' => hq k₀ (by simp) h'.symm)
                      · intro q hq
                        exact hnone q (lookupKV_eraseKV_none m (toLowerS k₀) q hq)
                      · intro hm
                        exact hnd (nodup_eraseKV m (toLowerS k₀) hm)
                      · intro q hq
                        exact mem_keys_eraseKV m (toLowerS k₀) q (hsub q hq)

/-- The matched-entry behaviour of the `_applyEnv` loop: a target key whose
lower-cased form hits a truthy source entry gets the transformed value, and
the hit entry is deleted from the remaining source. -/
theorem applyEnvGo_match (jp : String → Option JValue) :
    ∀ (tgt : List (String × JValue)) (m out : List (String × JValue)) (src' : JValue)
      (k : String) (tv sv tv' : JValue),
      applyEnvGo jp tgt (.obj m) = .ok (out, src') →
      (tgt.map (fun kv => toLowerS kv.1)).Nodup →
      (m.map Prod.fst).Nodup →
      lookupKV tgt k = some tv →
      lookupKV m (toLowerS k) = some sv →
      jsTruthy sv = true →
      (if isObjType tv = true then applyEnvVal jp tv sv
       else .ok (jsonOr jp sv)) = .ok tv' →
      lookupKV out k = some tv' ∧
        ∃ m', src' = .obj m' ∧ lookupKV m' (toLowerS k) = none := by
  intro tgt
  induction tgt with
  | nil =>
      intro m out src' k tv sv tv' h _ _ hk
      simp [lookupKV] at hk
  | cons hd rest ih =>
      intro m out src' k tv sv tv' h hlow hmnd hk hm htr hv
      obtain ⟨k₀, tv₀⟩ := hd
      simp only [List.map_cons, List.nodup_cons] at hlow
      by_cases hk0 : k₀ = k
      · subst hk0
        have htv : tv₀ = tv := by simpa [lookupKV] using hk
        subst htv
        rw [applyEnvGo_cons_truthy jp k₀ tv₀ rest m sv tv' hm htr hv] at h
        cases hr : applyEnvGo jp rest (.obj (eraseKV m (toLowerS k₀))) with
        | error e => rw [hr] at h; exact Except.noConfusion h
        | ok pr =>
            obtain ⟨rest', src₂⟩ := pr
            rw [hr] at h
            cases h
            refine ⟨by simp [lookupKV], ?_⟩
            obtain ⟨m', he, _, hnone, _, _⟩ :=
              applyEnvGo_src jp rest (eraseKV m (toLowerS k₀)) rest' src₂ hr
            exact ⟨m', he, hnone _ (lookupKV_eraseKV_self m (toLowerS k₀) hmnd)⟩
      · have hkrest : lookupKV rest k = some tv := by
          simpa [lookupKV, hk0] using hk
        have hmemlow : toLowerS k ∈ rest.map (fun kv => toLowerS kv.1) := by
          have : k ∈ rest.map Prod.fst :=
            List.mem_map_of_mem Prod.fst (lookupKV_mem hkrest)
          simpa [List.map_map, Function.comp] using
            List.mem_map_of_mem (fun x => toLowerS x) this
        have hne : toLowerS k₀ ≠ toLowerS k := fun hc => hlow.1 (hc ▸ hmemlow)
        cases hl : lookupKV m (toLowerS k₀) with
        | none =>
            rw [applyEnvGo_cons_none jp k₀ tv₀ rest m hl] at h
            cases hr : applyEnvGo jp rest (.obj m) with
            | error e => rw [hr] at h; exact Except.noConfusion h
            | ok pr =>
                obtain ⟨rest', src₂⟩ := pr
                rw [hr] at h
                cases h
                obtain ⟨h1, h2⟩ := ih m rest' src₂ k tv sv tv' hr hlow.2 hmnd hkrest hm htr hv
                exact ⟨by simpa [lookupKV, hk0] using h1, h2⟩
        | some sv₀ =>
            cases htr0 : jsTruthy sv₀ with
            | false =>
                rw [applyEnvGo_cons_falsy jp k₀ tv₀ rest m sv₀ hl htr0] at h
                cases hr : applyEnvGo jp rest (.obj m) with
                | error e => rw [hr] at h; exact Except.noConfusion h
                | ok pr =>
                    obtain ⟨rest', src₂⟩ := pr
                    rw [hr] at h
                    cases h
                    obtain ⟨h1, h2⟩ := ih m rest' src₂ k tv sv tv' hr hlow.2 hmnd hkrest hm htr hv
                    exact ⟨by simpa [lookupKV, hk0] using h1, h2⟩
            | true =>
                cases hvv : (if isObjType tv₀ = true then applyEnvVal jp tv₀ sv₀
                             else .ok (jsonOr jp sv₀)) with
                | error e =>
                    rw [applyEnvGo_cons_truthy_err jp k₀ tv₀ rest m sv₀ e hl htr0 hvv] at h
                    exact Except.noConfusion h
                | ok tw =>
                    rw [applyEnvGo_cons_truthy jp k₀ tv₀ rest m sv₀ tw hl htr0 hvv] at h
                    cases hr : applyEnvGo jp rest (.obj (eraseKV m (toLowerS k₀))) with
                    | error e => rw [hr] at h; exact Except.noConfusion h
                    | ok pr =>
                        obtain ⟨rest', src₂⟩ := pr
                        rw [hr] at h
                        cases h
                        have hm2 : lookupKV (eraseKV m (toLowerS k₀)) (toLowerS k) = some sv :=
                          (lookupKV_eraseKV_ne m (toLowerS k₀) (toLowerS k)
                            (fun h' => hne h'.symm)).trans hm
                        obtain ⟨h1, h2⟩ := ih _ rest' src₂ k tv sv tv' hr hlow.2
                          (nodup_eraseKV m (toLowerS k₀) hmnd) hkrest hm2 htr hv
                        exact ⟨by simpa [lookupKV, hk0] using h1, h2⟩

/-- A load cycle emits either nothing (failed scan) or exactly one change
event. -/
theorem loadPhase_trace (amb : Ambient) (t : String) (s : CState) :
    (loadPhase amb t s).2 = [] ∨ (loadPhase amb t s).2 = [.change] := by
  cases hd : readdirN amb.fs (s.dirCache.getD amb.dirDefault) with
  | none => rw [loadPhase_eq_none amb t s hd]; exact Or.inl rfl
  | some files =>
      rw [loadPhase_eq_scan amb t s files _ hd rfl]
      cases hok : (scanFiles amb t (s.dirCache.getD amb.dirDefault) files
          {s with dirCache := some (s.dirCache.getD amb.dirDefault)}
          (.obj []) (.obj []) (.obj [])).ok
      · rw [if_neg (by simp)]; exact Or.inl rfl
      · rw [if_pos rfl]; exact Or.inr rfl

/-- Shape of a successful enabled environment overlay: one `envApply`
effect, and the properties become the walked map with the leftover source
assigned wholesale. -/
theorem parseEnvPhase_dest (amb : Ambient) (s s₂ : CState) (ev : List Ev)
    (hn : amb.noenv = false) (h : parseEnvPhase amb s = .ok (s₂, ev)) :
    ev = [.envApply] ∧
      ∃ p src', applyEnvGo amb.jp s.props (.obj (envTree amb)) = .ok (p, src') ∧
        s₂ = {s with props := objAssign p (assignEntries src')} := by
  unfold parseEnvPhase at h
  rw [if_neg (by simp [hn])] at h
  cases hgo : applyEnvGo amb.jp s.props (.obj (envTree amb)) with
  | error e => rw [hgo] at h; exact Except.noConfusion h
  | ok pr =>
      obtain ⟨p, src'⟩ := pr
      rw [hgo] at h
      cases h
      exact ⟨rfl, p, src', rfl, rfl⟩

/-- C4 (amended): in a `reload` with the overlay enabled, the overlay runs
exactly once, after the file merge and its change notification (first
conjunct: the effect trace is `[change, envApply]`, or `[envApply]` when the
scan failed); an existing scalar leaf whose lower-cased key matches a
*truthy* entry of the environment tree is replaced by the JSON-parsed value
when parsing succeeds and by the raw string otherwise (second conjunct); an
existing object-typed value whose lower-cased key matches a truthy entry is
recursed into (third conjunct); entries matched by no existing key are
merged in wholesale, unparsed (fourth conjunct).  Falsy (empty-string)
entries are *not* matched during the walk: they are left in the source and
the final wholesale merge then overwrites the corresponding key with the raw
entry — even replacing a nested object (see the counterexample). -/
theorem claim4_env_overlay :
    (∀ amb t d o s s' ev, (amb : Ambient).noenv = false →
       reloadSt amb t d o s = .ok (s', ev) →
       ev = [.change, .envApply] ∨ ev = [.envApply]) ∧
    (∀ (amb : Ambient) (s s₂ : CState) (ev : List Ev) (k : String) (tv : JValue)
       (e : String),
       amb.noenv = false →
       (s.props.map (fun kv => toLowerS kv.1)).Nodup →
       ((envTree amb).map Prod.fst).Nodup →
       (∀ k' ∈ (envTree amb).map Prod.fst, toLowerS k' = k') →
       lookupKV s.props k = some tv →
       isObjType tv = false →
       lookupKV (envTree amb) (toLowerS k) = some (.str e) →
       jsTruthy (.str e) = true →
       parseEnvPhase amb s = .ok (s₂, ev) →
       lookupKV s₂.props k = some ((amb.jp e).getD (.str e))) ∧
    (∀ (amb : Ambient) (s s₂ : CState) (ev : List Ev) (k : String)
       (tv sv tv' : JValue),
       amb.noenv = false →
       (s.props.map (fun kv => toLowerS kv.1)).Nodup →
       ((envTree amb).map Prod.fst).Nodup →
       (∀ k' ∈ (envTree amb).map Prod.fst, toLowerS k' = k') →
       lookupKV s.props k = some tv →
       isObjType tv = true →
       lookupKV (envTree amb) (toLowerS k) = some sv →
       jsTruthy sv = true →
       applyEnvVal amb.jp tv sv = .ok tv' →
       parseEnvPhase amb s = .ok (s₂, ev) →
       lookupKV s₂.props k = some tv') ∧
    (∀ (amb : Ambient) (s s₂ : CState) (ev : List Ev) (q : String) (sv : JValue),
       amb.noenv = false →
       ((envTree amb).map Prod.fst).Nodup →
       lookupKV (envTree amb) q = some sv →
       (∀ k' ∈ s.props.map Prod.fst, toLowerS k' ≠ q) →
       parseEnvPhase amb s = .ok (s₂, ev) →
       lookupKV s₂.props q = some sv) := by
  refine ⟨?_, ?_, ?_, ?_⟩
  · intro amb t d o s s' ev hn hrun
    simp only [reloadSt] at hrun
    cases hpe : parseEnvPhase amb (setTier amb t (resetSt amb d o s)).1 with
    | error e => rw [hpe] at hrun; exact Except.noConfusion hrun
    | ok pr =>
        obtain ⟨s3, ev2⟩ := pr
        rw [hpe] at hrun
        cases hrun
        obtain ⟨hev2, -⟩ := parseEnvPhase_dest amb _ _ _ hn hpe
        subst hev2
        rcases loadPhase_trace amb t (resetSt amb d o s) with h | h
        · right
          rw [show (setTier amb t (resetSt amb d o s)).2 =
                (loadPhase amb t (resetSt amb d o s)).2 from rfl, h]
          try rfl
        · left
          rw [show (setTier amb t (resetSt amb d o s)).2 =
                (loadPhase amb t (resetSt amb d o s)).2 from rfl, h]
          try rfl
  · intro amb s s₂ ev k tv e hn hlow hend hfix hk hsc he htr hpe
    obtain ⟨-, p, src', hgo, hs2⟩ := parseEnvPhase_dest amb s s₂ ev hn hpe
    have hv : (if isObjType tv = true then applyEnvVal amb.jp tv (.str e)
               else .ok (jsonOr amb.jp (.str e))) = .ok (jsonOr amb.jp (.str e)) := by
      rw [if_neg (by simp [hsc])]
      try rfl
    obtain ⟨h1, m', he', hnone⟩ :=
      applyEnvGo_match amb.jp s.props (envTree amb) p src' k tv (.str e)
        (jsonOr amb.jp (.str e)) hgo hlow hend hk he htr hv
    obtain ⟨m'', he'', -, -, -, hsub⟩ :=
      applyEnvGo_src amb.jp s.props (envTree amb) p src' hgo
    have hmm : m'' = m' := by
      rw [he'] at he''
      injection he'' with h0
      exact h0.symm
    subst hmm
    have hnot : k ∉ m''.map Prod.fst := by
      intro hmem
      have hkfix : toLowerS k = k := hfix k (hsub k hmem)
      rw [hkfix] at hnone
      have := lookupKV_isSome_of_mem m'' k hmem
      rw [hnone] at this
      cases this
    subst hs2
    rw [show (({s with props := objAssign p (assignEntries src')} : CState)).props =
          objAssign p (assignEntries src') from rfl, he']
    rw [show assignEntries (.obj m'') = m'' from rfl]
    rw [objAssign_lookup_notmem m'' p k hnot]
    exact h1
  · intro amb s s₂ ev k tv sv tv' hn hlow hend hfix hk hob he htr happ hpe
    obtain ⟨-, p, src', hgo, hs2⟩ := parseEnvPhase_dest amb s s₂ ev hn hpe
    have hv : (if isObjType tv = true then applyEnvVal amb.jp tv sv
               else .ok (jsonOr amb.jp sv)) = .ok tv' := by
      rw [if_pos hob]
      exact happ
    obtain ⟨h1, m', he', hnone⟩ :=
      applyEnvGo_match amb.jp s.props (envTree amb) p src' k tv sv tv'
        hgo hlow hend hk he htr hv
    obtain ⟨m'', he'', -, -, -, hsub⟩ :=
      applyEnvGo_src amb.jp s.props (envTree amb) p src' hgo
    have hmm : m'' = m' := by
      rw [he'] at he''
      injection he'' with h0
      exact h0.symm
    subst hmm
    have hnot : k ∉ m''.map Prod.fst := by
      intro hmem
      have hkfix : toLowerS k = k := hfix k (hsub k hmem)
      rw [hkfix] at hnone
      have := lookupKV_isSome_of_mem m'' k hmem
      rw [hnone] at this
      cases this
    subst hs2
    rw [show (({s with props := objAssign p (assignEntries src')} : CState)).props =
          objAssign p (assignEntries src') from rfl, he']
    rw [show assignEntries (.obj m'') = m'' from rfl]
    rw [objAssign_lookup_notmem m'' p k hnot]
    exact h1
  · intro amb s s₂ ev q sv hn hend hq hnomatch hpe
    obtain ⟨-, p, src', hgo, hs2⟩ := parseEnvPhase_dest amb s s₂ ev hn hpe
    obtain ⟨m', he', hpres, -, hnd, -⟩ :=
      applyEnvGo_src amb.jp s.props (envTree amb) p src' hgo
    subst hs2
    rw [show (({s with props := objAssign p (assignEntries src')} : CState)).props =
          objAssign p (assignEntries src') from rfl, he']
    rw [show assignEntries (.obj m') = m' from rfl]
    refine objAssign_lookup_mem m' p q sv (hnd hend) ?_
    rw [hpres q hnomatch]
    exact hq

/-- Settings for the C4 witness. -/
def ambC4w : Ambient :=
  { fs := [("/d", .dir [])],
    env := [("HOME_JAVA", "/usr/bin/java"), ("FLAG", "5"), ("EXTRA", "zz")],
    dirDefault := "/d", defaultPref := "default.",
    ovrAmbient := none, noenv := false, delim := "_", cwd := "/c",
    jp := jsonParseModel }

/-- The pre-state of the C4 witness. -/
def sC4w : CState :=
  {cstate0 with props := [("home", .obj [("java", .str "/dev/null")]),
                          ("flag", .str "x")]}

/-- Witness for C4: the spec's `HOME_JAVA` example (recursion into the
existing object), typed coercion of `FLAG=5`, and wholesale merge of the
unmatched `EXTRA`. -/
theorem claim4_env_overlay_witness :
    (∃ s₂ ev, parseEnvPhase ambC4w sC4w = .ok (s₂, ev) ∧
      lookupKV s₂.props "flag" = some (.num 5) ∧
      lookupKV s₂.props "home" = some (.obj [("java", .str "/usr/bin/java")]) ∧
      lookupKV s₂.props "extra" = some (.str "zz")) ∧
    ([Ev.change, Ev.envApply] = [Ev.change, Ev.envApply] ∨
      ([Ev.change, Ev.envApply] : List Ev) = [Ev.envApply]) := by
  constructor
  · refine ⟨{sC4w with props := [("home", .obj [("java", .str "/usr/bin/java")]),
                                 ("flag", .num 5), ("extra", .str "zz")]},
            [Ev.envApply], rfl, ?_, ?_, ?_⟩
    · have h := claim4_env_overlay.2.1 ambC4w sC4w
        {sC4w with props := [("home", .obj [("java", .str "/usr/bin/java")]),
                             ("flag", .num 5), ("extra", .str "zz")]}
        [Ev.envApply] "flag" (.str "x") "5" rfl (by decide) (by decide) (by decide)
        rfl rfl rfl (by decide) rfl
      exact h
    · exact claim4_env_overlay.2.2.1 ambC4w sC4w
        {sC4w with props := [("home", .obj [("java", .str "/usr/bin/java")]),
                             ("flag", .num 5), ("extra", .str "zz")]}
        [Ev.envApply] "home" (.obj [("java", .str "/dev/null")])
        (.obj [("java", .str "/usr/bin/java")])
        (.obj [("java", .str "/usr/bin/java")]) rfl (by decide) (by decide)
        (by decide) rfl rfl rfl (by decide) rfl rfl
    · exact claim4_env_overlay.2.2.2 ambC4w sC4w
        {sC4w with props := [("home", .obj [("java", .str "/usr/bin/java")]),
                             ("flag", .num 5), ("extra", .str "zz")]}
        [Ev.envApply] "extra" (.str "zz") rfl (by decide) rfl (by decide) rfl
  · exact claim4_env_overlay.1 ambC4w "t" "/d" none cstate0
      {cstate0 with
         props := [("prodNames", defProd),
                   ("home", .obj [("java", .str "/usr/bin/java")]),
                   ("flag", .str "5"), ("extra", .str "zz")],
         dirCache := some "/d"}
      [Ev.change, Ev.envApply] rfl rfl

/-- Settings for the C4 counterexample: a single environment variable set to
the empty string. -/
def ambC4 : Ambient :=
  { fs := [("/d", .dir [])],
    env := [("A", "")],
    dirDefault := "/d", defaultPref := "default.",
    ovrAmbient := none, noenv := false, delim := "_", cwd := "/c",
    jp := jsonParseModel }

/-- The pre-state of the C4 counterexample: `a` holds a nested object. -/
def sC4 : CState := {cstate0 with props := [("a", .obj [("x", .num 1)])]}

/-- C4 counterexample: the key `a` matches the environment entry `A=""`, so
per the claim the existing nested object should be recursed into (and, its
leaf being absent from the entry, left as `{x: 1}`); but the falsy entry is
skipped by the walk and survives into the wholesale `Object.assign`, which
replaces the whole object with the raw empty string. -/
theorem claim4_cex :
    (parseEnvPhase ambC4 sC4).map (fun r => lookupKV r.1.props "a") =
      .ok (some (.str "")) ∧
    JValue.str "" ≠ .obj [("x", .num 1)] := by
  exact ⟨rfl, by simp⟩



theorem startsWithS_toLowerS (k : String) (h : startsWithS k "_" = true) :
    startsWithS (toLowerS k) "_" = true := by
  unfold startsWithS toLowerS at *
  cases hk : k.toList with
  | nil => rw [hk] at h; simp [List.isPrefixOf] at h
  | cons c cs =>
      rw [hk] at h
      simp only [String.toList, String.mk] at *
      simp only [List.isPrefixOf, List.map_cons, Bool.and_eq_true, beq_iff_eq] at h ⊢
      refine ⟨?_, trivial⟩
      rw [← h.1]
      decide

/-- `clearProps` ignores a property write at a non-underscore key. -/
theorem clearProps_setKV (t : List (String × JValue)) (k : String) (v : JValue)
    (h : startsWithS k "_" = false) : clearProps (setKV t k v) = clearProps t := by
  unfold clearProps
  exact filter_setKV_neg t k v (fun x => startsWithS x "_") h

/-- `clearProps` ignores a fill-in step at a non-underscore key. -/
theorem clearProps_applyIns (st : List (String × JValue)) (k : String) (v : JValue)
    (h : startsWithS k "_" = false) :
    clearProps (applyIns st k v) = clearProps st := by
  unfold applyIns
  cases hl : lookupKV st k with
  | none =>
      unfold clearProps
      rw [List.filter_append]
      simp [h]
  | some tv => exact clearProps_setKV st k _ h

/-- `clearProps` ignores a whole fill-missing merge whose source keys are all
non-underscore. -/
theorem clearProps_applyKV (l : List (String × JValue))
    (hl : ∀ k ∈ l.map Prod.fst, startsWithS k "_" = false) :
    ∀ st, clearProps (applyKV st l) = clearProps st := by
  induction l with
  | nil => intro st; rfl
  | cons hd tl ih =>
      intro st
      obtain ⟨k, v⟩ := hd
      show clearProps (applyKV (applyIns st k v) tl) = clearProps st
      rw [ih (fun k' hk' => hl k' (List.mem_cons_of_mem _ hk')),
          clearProps_applyIns st k v (hl k (by simp))]

/-- `clearProps` ignores the `prodNames` seeding. -/
theorem clearProps_seedProd (props : List (String × JValue)) :
    clearProps (seedProd props) = clearProps props := by
  unfold seedProd
  cases hl : lookupKV props "prodNames" with
  | none =>
      unfold clearProps
      rw [List.filter_append]
      simp [show startsWithS "prodNames" "_" = false from by decide]
  | some v =>
      show clearProps (if jsTruthy v = true then props
                       else setKV props "prodNames" defProd) = clearProps props
      cases ht : jsTruthy v
      · rw [if_neg (by simp [ht])]
        exact clearProps_setKV props "prodNames" defProd (by decide)
      · rw [if_pos (by simp [ht])]

/-- `clearProps` ignores an `Object.assign` whose source keys are all
non-underscore. -/
theorem clearProps_objAssign (src : List (String × JValue))
    (hs : ∀ k ∈ src.map Prod.fst, startsWithS k "_" = false) :
    ∀ t, clearProps (objAssign t src) = clearProps t := by
  induction src with
  | nil => intro t; rfl
  | cons hd tl ih =>
      intro t
      obtain ⟨k, v⟩ := hd
      rw [show objAssign t ((k, v) :: tl) = objAssign (setKV t k v) tl from rfl]
      rw [ih (fun k' hk' => hs k' (List.mem_cons_of_mem _ hk'))]
      exact clearProps_setKV t k v (hs k (by simp))

/-- The `_applyEnv` walk leaves the underscore-filtered view of the target
unchanged when no source key starts with an underscore: an underscore target
key finds no source match (lower-casing keeps the leading underscore), and a
non-underscore entry is dropped by the filter whether rewritten or not. -/
theorem clearProps_applyEnvGo (jp : String → Option JValue) :
    ∀ (tgt : List (String × JValue)) (m out : List (String × JValue)) (src' : JValue),
      (∀ q ∈ m.map Prod.fst, startsWithS q "_" = false) →
      applyEnvGo jp tgt (.obj m) = .ok (out, src') →
      clearProps out = clearProps tgt := by
  intro tgt
  induction tgt with
  | nil =>
      intro m out src' hm h
      simp only [applyEnvGo] at h
      cases h
      rfl
  | cons hd rest ih =>
      intro m out src' hm h
      obtain ⟨k₀, tv₀⟩ := hd
      cases hsw : startsWithS k₀ "_" with
      | true =>
          have hnm : lookupKV m (toLowerS k₀) = none := by
            apply lookupKV_none_of_not_mem
            intro hmem
            have hq := hm _ hmem
            rw [startsWithS_toLowerS k₀ hsw] at hq
            exact Bool.noConfusion hq
          rw [applyEnvGo_cons_none jp k₀ tv₀ rest m hnm] at h
          cases hr : applyEnvGo jp rest (.obj m) with
          | error e => rw [hr] at h; exact Except.noConfusion h
          | ok pr =>
              obtain ⟨rest', src₂⟩ := pr
              rw [hr] at h
              cases h
              have hrec := ih m rest' src₂ hm hr
              unfold clearProps at hrec ⊢
              simp only [List.filter_cons, hsw, if_pos]
              rw [hrec]
      | false =>
          cases hl : lookupKV m (toLowerS k₀) with
          | none =>
              rw [applyEnvGo_cons_none jp k₀ tv₀ rest m hl] at h
              cases hr : applyEnvGo jp rest (.obj m) with
              | error e => rw [hr] at h; exact Except.noConfusion h
              | ok pr =>
                  obtain ⟨rest', src₂⟩ := pr
                  rw [hr] at h
                  cases h
                  have hrec := ih m rest' src₂ hm hr
                  unfold clearProps at hrec ⊢
                  simp only [List.filter_cons, hsw]
                  rw [hrec]
          | some sv =>
              cases ht : jsTruthy sv with
              | false =>
                  rw [applyEnvGo_cons_falsy jp k₀ tv₀ rest m sv hl ht] at h
                  cases hr : applyEnvGo jp rest (.obj m) with
                  | error e => rw [hr] at h; exact Except.noConfusion h
                  | ok pr =>
                      obtain ⟨rest', src₂⟩ := pr
                      rw [hr] at h
                      cases h
                      have hrec := ih m rest' src₂ hm hr
                      unfold clearProps at hrec ⊢
                      simp only [List.filter_cons, hsw]
                      rw [hrec]
              | true =>
                  cases hv : (if isObjType tv₀ = true then applyEnvVal jp tv₀ sv
                              else .ok (jsonOr jp sv)) with
                  | error e =>
                      rw [applyEnvGo_cons_truthy_err jp k₀ tv₀ rest m sv e hl ht hv] at h
                      exact Except.noConfusion h
                  | ok tv' =>
                      rw [applyEnvGo_cons_truthy jp k₀ tv₀ rest m sv tv' hl ht hv] at h
                      cases hr : applyEnvGo jp rest (.obj (eraseKV m (toLowerS k₀))) with
                      | error e => rw [hr] at h; exact Except.noConfusion h
                      | ok pr =>
                          obtain ⟨rest', src₂⟩ := pr
                          rw [hr] at h
                          cases h
                          have hrec := ih (eraseKV m (toLowerS k₀)) rest' src₂
                            (fun q hq => hm q (mem_keys_eraseKV m (toLowerS k₀) q hq)) hr
                          unfold clearProps at hrec ⊢
                          simp only [List.filter_cons, hsw, Bool.false_eq_true, if_false]
                          rw [hrec]

/-- A successful environment overlay leaves the underscore-filtered view of
the properties and all bookkeeping fields unchanged, provided no key of the
environment tree starts with an underscore. -/
theorem parseEnvPhase_clear (amb : Ambient) (s s₂ : CState) (ev : List Ev)
    (he : ∀ q ∈ (envTree amb).map Prod.fst, startsWithS q "_" = false)
    (h : parseEnvPhase amb s = .ok (s₂, ev)) :
    clearProps s₂.props = clearProps s.props ∧ s₂.sources = s.sources ∧
      s₂.tier = s.tier ∧ s₂.dirCache = s.dirCache ∧
      s₂.ovrCache = s.ovrCache ∧ s₂.dfltCache = s.dfltCache := by
  unfold parseEnvPhase at h
  by_cases hn : amb.noenv = true
  · rw [if_pos hn] at h
    cases h
    exact ⟨rfl, rfl, rfl, rfl, rfl, rfl⟩
  · rw [if_neg hn] at h
    cases hgo : applyEnvGo amb.jp s.props (.obj (envTree amb)) with
    | error e => rw [hgo] at h; exact Except.noConfusion h
    | ok pr =>
        obtain ⟨p, src'⟩ := pr
        rw [hgo] at h
        cases h
        refine ⟨?_, rfl, rfl, rfl, rfl, rfl⟩
        obtain ⟨m', hsrc, _, _, _, hsub⟩ :=
          applyEnvGo_src amb.jp s.props (envTree amb) p src' hgo
        subst hsrc
        rw [clearProps_objAssign (assignEntries (.obj m'))
          (fun k hk => he k (hsub k hk)) p]
        exact clearProps_applyEnvGo amb.jp s.props (envTree amb) p (.obj m') he hgo

/-- A successful `_readFile` means the path names a regular file holding the
returned content. -/
theorem readFileM_ok_stat (fs : List (String × FsNode)) (p : String) (c : JValue)
    (h : readFileM fs p = .ok c) : statN fs p = some (.file c) := by
  unfold readFileM at h
  split at h
  · cases hs : statN fs p with
    | none => rw [hs] at h; exact Except.noConfusion h
    | some n =>
        cases n with
        | dir es => rw [hs] at h; exact Except.noConfusion h
        | other => rw [hs] at h; exact Except.noConfusion h
        | file c' =>
            rw [hs] at h
            injection h with h'
            rw [h']
  · exact Except.noConfusion h

/-- Every layer the scan loop produces is an input layer or the parsed
content of some regular file, so a key bound on the filesystem's file
contents carries over to the three layers. -/
theorem scanFiles_layers (amb : Ambient) (ta dv : String)
    (hf : ∀ p c, statN amb.fs p = some (.file c) →
      ∀ k ∈ (propsOf c).map Prod.fst, startsWithS k "_" = false) :
    ∀ (files : List String) (st : CState) (d t o : JValue),
      (∀ k ∈ (propsOf d).map Prod.fst, startsWithS k "_" = false) →
      (∀ k ∈ (propsOf t).map Prod.fst, startsWithS k "_" = false) →
      (∀ k ∈ (propsOf o).map Prod.fst, startsWithS k "_" = false) →
      (∀ k ∈ (propsOf (scanFiles amb ta dv files st d t o).dcfg).map Prod.fst,
        startsWithS k "_" = false) ∧
      (∀ k ∈ (propsOf (scanFiles amb ta dv files st d t o).tcfg).map Prod.fst,
        startsWithS k "_" = false) ∧
      (∀ k ∈ (propsOf (scanFiles amb ta dv files st d t o).ocfg).map Prod.fst,
        startsWithS k "_" = false) := by
  intro files
  induction files with
  | nil => intro st d t o hd ht ho; exact ⟨hd, ht, ho⟩
  | cons f rest ih =>
      intro st d t o hd ht ho
      simp only [scanFiles]
      split
      · split
        · exact ⟨hd, ht, ho⟩
        · rename_i c hc
          exact ih _ c t o (hf _ c (readFileM_ok_stat _ _ _ hc)) ht ho
      · split
        · exact ⟨hd, ht, ho⟩
        · rename_i c hc
          exact ih _ d t c hd ht (hf _ c (readFileM_ok_stat _ _ _ hc))
      · split
        · exact ⟨hd, ht, ho⟩
        · rename_i c hc
          exact ih _ d c o hd (hf _ c (readFileM_ok_stat _ _ _ hc)) ho
      · exact ih _ d t o hd ht ho

/-- A load pass leaves the underscore-filtered view of the properties
unchanged whenever every file content on the filesystem has underscore-free
top-level keys: the scan never touches the properties, the merged layers are
file contents, and `prodNames` is not an underscore key. -/
theorem loadPhase_clear (amb : Ambient) (t : String) (s : CState)
    (hf : ∀ p c, statN amb.fs p = some (.file c) →
      ∀ k ∈ (propsOf c).map Prod.fst, startsWithS k "_" = false) :
    clearProps ((loadPhase amb t s).1).props = clearProps s.props := by
  cases hd : readdirN amb.fs (s.dirCache.getD amb.dirDefault) with
  | none =>
      rw [loadPhase_eq_none amb t s hd]
      exact clearProps_seedProd _
  | some files =>
      rw [loadPhase_eq_scan amb t s files _ hd rfl]
      have hnull : ∀ k ∈ (propsOf (JValue.obj [])).map Prod.fst,
          startsWithS k "_" = false := by
        intro k hk
        exact absurd hk (List.not_mem_nil k)
      have hlay := scanFiles_layers amb t (s.dirCache.getD amb.dirDefault) hf files
        {s with dirCache := some (s.dirCache.getD amb.dirDefault)}
        (.obj []) (.obj []) (.obj []) hnull hnull hnull
      have hsp := scanFiles_props amb t (s.dirCache.getD amb.dirDefault) files
        {s with dirCache := some (s.dirCache.getD amb.dirDefault)}
        (.obj []) (.obj []) (.obj [])
      cases hok : (scanFiles amb t (s.dirCache.getD amb.dirDefault) files
          {s with dirCache := some (s.dirCache.getD amb.dirDefault)}
          (.obj []) (.obj []) (.obj [])).ok with
      | false =>
          rw [if_neg (by simp)]
          show clearProps (seedProd _) = _
          rw [clearProps_seedProd, hsp]
      | true =>
          rw [if_pos rfl]
          show clearProps (seedProd (mergeLayers _ _ _ _)) = _
          rw [clearProps_seedProd]
          unfold mergeLayers
          rw [clearProps_applyKV _ hlay.1 _, clearProps_applyKV _ hlay.2.1 _,
              clearProps_applyKV _ hlay.2.2 _, hsp]

/-- Once `_default` is cached, every later scan state keeps the cached
value (re-reading the getter resolves to the cache). -/
theorem scanFiles_cache_mono (amb : Ambient) (ta dv : String) (e : String) :
    ∀ (files : List String) (st : CState) (d t o : JValue),
      st.dfltCache = some e →
      (scanFiles amb ta dv files st d t o).st.dfltCache = some e := by
  intro files
  induction files with
  | nil => intro st d t o hst; exact hst
  | cons f rest ih =>
      intro st d t o hst
      simp only [scanFiles]
      split
      · split
        · split <;> simp [hst]
        · exact ih _ _ _ _ (by split <;> simp [hst])
      · split
        · split <;> simp [hst]
        · exact ih _ _ _ _ (by split <;> simp [hst])
      · split
        · split <;> simp [hst]
        · exact ih _ _ _ _ (by split <;> simp [hst])
      · exact ih _ _ _ _ (by split <;> simp [hst])

/-- A nonempty scan resolves `_default` to its effective value in the first
iteration and keeps it from then on. -/
theorem scanFiles_cache (amb : Ambient) (ta dv : String) (f : String)
    (rest : List String) (st : CState) (d t o : JValue) :
    (scanFiles amb ta dv (f :: rest) st d t o).st.dfltCache =
      some (st.dfltCache.getD amb.defaultPref) := by
  simp only [scanFiles]
  split
  · split
    · split <;> rfl
    · exact scanFiles_cache_mono amb ta dv _ rest _ _ _ _ (by split <;> rfl)
  · split
    · split <;> rfl
    · exact scanFiles_cache_mono amb ta dv _ rest _ _ _ _ (by split <;> rfl)
  · split
    · split <;> rfl
    · exact scanFiles_cache_mono amb ta dv _ rest _ _ _ _ (by split <;> rfl)
  · exact scanFiles_cache_mono amb ta dv _ rest _ _ _ _ (by split <;> rfl)

/-- Two instance states that differ only in the `_default` cache, with the
same effective default, scan a nonempty file list identically: the first
iteration overwrites the cache with the shared effective value. -/
theorem scanFiles_congr (amb : Ambient) (ta dv : String) (f : String)
    (rest : List String) (p : List (String × JValue)) (so : List String)
    (ti : Option String) (di : Option String) (ov : OvrVal)
    (ca cb : Option String) (d t o : JValue)
    (hc : ca.getD amb.defaultPref = cb.getD amb.defaultPref) :
    scanFiles amb ta dv (f :: rest) ⟨p, so, ti, di, ov, ca⟩ d t o =
      scanFiles amb ta dv (f :: rest) ⟨p, so, ti, di, ov, cb⟩ d t o := by
  simp only [scanFiles]
  rw [hc]

/-- The reset prefix of `reload` depends on the previous state only through
the filtered properties and the `_default` cache. -/
theorem resetSt_congr (amb : Ambient) (d : String) (o : Option String)
    (s s' : CState) (hp : clearProps s'.props = clearProps s.props)
    (hc : s'.dfltCache = s.dfltCache) :
    resetSt amb d o s' = resetSt amb d o s := by
  unfold resetSt
  rw [hp, hc]

/-- Load passes from two states that differ only in an equally-resolving
`_default` cache coincide when the directory listing is nonempty. -/
theorem loadPhase_congr (amb : Ambient) (t : String) (p : List (String × JValue))
    (so : List String) (ti : Option String) (di : Option String) (ov : OvrVal)
    (ca cb : Option String) (f : String) (rest : List String)
    (hd : readdirN amb.fs (di.getD amb.dirDefault) = some (f :: rest))
    (hc : ca.getD amb.defaultPref = cb.getD amb.defaultPref) :
    loadPhase amb t ⟨p, so, ti, di, ov, ca⟩ = loadPhase amb t ⟨p, so, ti, di, ov, cb⟩ := by
  rw [loadPhase_eq_scan amb t ⟨p, so, ti, di, ov, ca⟩ (f :: rest) _ hd rfl,
      loadPhase_eq_scan amb t ⟨p, so, ti, di, ov, cb⟩ (f :: rest) _ hd rfl,
      scanFiles_congr amb t (di.getD amb.dirDefault) f rest p so ti
        (some (di.getD amb.dirDefault)) ov ca cb (.obj []) (.obj []) (.obj []) hc]

/-- C6 (amended): `reload` with the same arguments is idempotent on the
underscore-free fragment the code is designed for: when every parsed file's
top-level keys and every environment-tree key are underscore-free, a
successful reload reaching state `s2` is reproduced exactly — same state,
same effect trace — by a second identical reload started from `s2`.
(Without that restriction idempotence fails, see the counterexample: an
environment variable whose name begins with an underscore survives the
property-clearing loop, and the second overlay walks into it, JSON-parsing
and reordering what the first run stored raw.) -/
theorem claim6_reload_idempotent (amb : Ambient) (t d : String) (o : Option String)
    (s s2 : CState) (ev : List Ev)
    (hf : ∀ p c, statN amb.fs p = some (.file c) →
      ∀ k ∈ (propsOf c).map Prod.fst, startsWithS k "_" = false)
    (he : ∀ q ∈ (envTree amb).map Prod.fst, startsWithS q "_" = false)
    (hrun : reloadSt amb t d o s = .ok (s2, ev)) :
    reloadSt amb t d o s2 = .ok (s2, ev) := by
  simp only [reloadSt, setTier] at hrun
  cases hpe : parseEnvPhase amb (loadPhase amb t (resetSt amb d o s)).1 with
  | error e =>
      rw [hpe] at hrun
      exact Except.noConfusion hrun
  | ok pr =>
      obtain ⟨s3, ev2⟩ := pr
      rw [hpe] at hrun
      have hpr : (s3, (loadPhase amb t (resetSt amb d o s)).2 ++ ev2) = (s2, ev) := by
        injection hrun
      have hs2 : s3 = s2 := congrArg Prod.fst hpr
      have hev : (loadPhase amb t (resetSt amb d o s)).2 ++ ev2 = ev :=
        congrArg Prod.snd hpr
      subst hs2
      subst hev
      have hpc := parseEnvPhase_clear amb _ s3 ev2 he hpe
      have hP : clearProps s3.props = clearProps s.props := by
        rw [hpc.1, loadPhase_clear amb t (resetSt amb d o s) hf]
        show clearProps (clearProps s.props) = clearProps s.props
        exact clearProps_idem s.props
      have hcc : s3.dfltCache = ((loadPhase amb t (resetSt amb d o s)).1).dfltCache :=
        hpc.2.2.2.2.2
      cases hd : readdirN amb.fs ((resetSt amb d o s).dirCache.getD amb.dirDefault) with
      | none =>
          have hc2 : s3.dfltCache = s.dfltCache := by
            rw [hcc, loadPhase_eq_none amb t _ hd]
            rfl
          have hres : resetSt amb d o s3 = resetSt amb d o s :=
            resetSt_congr amb d o s s3 hP hc2
          simp only [reloadSt, setTier]
          rw [hres, hpe]
      | some files =>
          cases files with
          | nil =>
              have hc2 : s3.dfltCache = s.dfltCache := by
                rw [hcc, loadPhase_eq_scan amb t _ [] _ hd rfl]
                rfl
              have hres : resetSt amb d o s3 = resetSt amb d o s :=
                resetSt_congr amb d o s s3 hP hc2
              simp only [reloadSt, setTier]
              rw [hres, hpe]
          | cons f rest =>
              have hc2 : s3.dfltCache = some (s.dfltCache.getD amb.defaultPref) := by
                rw [hcc, loadPhase_eq_scan amb t _ (f :: rest) _ hd rfl]
                cases hok : (scanFiles amb t
                    ((resetSt amb d o s).dirCache.getD amb.dirDefault) (f :: rest)
                    {resetSt amb d o s with
                      dirCache := some ((resetSt amb d o s).dirCache.getD amb.dirDefault)}
                    (.obj []) (.obj []) (.obj [])).ok with
                | false =>
                    rw [if_neg (by simp)]
                    exact scanFiles_cache amb t _ f rest _ (.obj []) (.obj []) (.obj [])
                | true =>
                    rw [if_pos rfl]
                    exact scanFiles_cache amb t _ f rest _ (.obj []) (.obj []) (.obj [])
              have hres3 : resetSt amb d o s3 =
                  {resetSt amb d o s with dfltCache := s3.dfltCache} := by
                unfold resetSt
                simp only [hP]
              have hload : loadPhase amb t (resetSt amb d o s3) =
                  loadPhase amb t (resetSt amb d o s) := by
                rw [hres3]
                exact loadPhase_congr amb t (resetSt amb d o s).props
                  (resetSt amb d o s).sources (resetSt amb d o s).tier
                  (resetSt amb d o s).dirCache (resetSt amb d o s).ovrCache
                  s3.dfltCache s.dfltCache f rest hd (by rw [hc2]; rfl)
              simp only [reloadSt, setTier]
              rw [hload, hpe]

/-- The ambient environment of the C6 counterexample: an empty config
directory, the delimiter set to `.`, and one environment variable whose name
begins with an underscore. -/
def amb6x : Ambient :=
  { fs := [("/d", .dir [])],
    env := [("_F.X", "42")],
    dirDefault := "/d", defaultPref := "default.",
    ovrAmbient := none, noenv := false, delim := ".", cwd := "/c",
    jp := jsonParseModel }

/-- The state the first C6-counterexample reload reaches: the overlay's
leftover `Object.assign` appended the `_f` subtree with the raw string
value. -/
def s6a : CState :=
  ⟨[("prodNames", defProd), ("_f", .obj [("x", .str "42")])],
   [], none, some "/d", .unset, none⟩

/-- The state the second C6-counterexample reload reaches: `_f` survived the
property-clearing loop, so this time the overlay walks into it, JSON-parses
the leaf and moves the key to the front. -/
def s6b : CState :=
  ⟨[("_f", .obj [("x", .num 42)]), ("prodNames", defProd)],
   [], none, some "/d", .unset, none⟩

/-- C6 counterexample: reloading twice with identical arguments is not
idempotent in general.  An environment variable named `_F.X` under the
delimiter `.` plants the underscore key `_f` holding `{x: "42"}` (raw, via
the leftover merge); the key survives the second run's property-clearing
loop, so the second overlay recurses into it and stores `{x: 42}`
(JSON-parsed) with the key reordered to the front — a different state. -/
theorem claim6_cex :
    reloadSt amb6x "t" "/d" none cstate0 = .ok (s6a, [.change, .envApply]) ∧
    reloadSt amb6x "t" "/d" none s6a = .ok (s6b, [.change, .envApply]) ∧
    lookupKV s6a.props "_f" = some (.obj [("x", .str "42")]) ∧
    lookupKV s6b.props "_f" = some (.obj [("x", .num 42)]) ∧
    JValue.str "42" ≠ .num 42 := by
  exact ⟨rfl, rfl, rfl, rfl, by simp⟩

/-- The ambient environment of the C6 witness: one default file with an
underscore-free top-level key and one plain environment variable. -/
def amb6w : Ambient :=
  { fs := [("/d", .dir ["default.json"]),
           ("/d/default.json", .file (.obj [("a", .num 1)]))],
    env := [("A", "2")],
    dirDefault := "/d", defaultPref := "default.",
    ovrAmbient := none, noenv := false, delim := "_", cwd := "/c",
    jp := jsonParseModel }

/-- The fixed point the C6 witness reload reaches. -/
def s6w : CState :=
  ⟨[("a", .num 2), ("prodNames", defProd)], ["/d/default.json"],
   some "default", some "/d", .unset, some "default."⟩

/-- Witness for C6 at a concrete filesystem and environment: the first
reload lands on `s6w`, and an identical second reload reproduces the same
state and the same effect trace. -/
theorem claim6_reload_idempotent_witness :
    reloadSt amb6w "t" "/d" none cstate0 = .ok (s6w, [.change, .envApply]) ∧
    reloadSt amb6w "t" "/d" none s6w = .ok (s6w, [.change, .envApply]) :=
  ⟨rfl,
   claim6_reload_idempotent amb6w "t" "/d" none cstate0 s6w [.change, .envApply]
     (by
       intro p c h
       simp only [statN, lookupKV] at h
       split at h
       · exact absurd h (by simp)
       · split at h
         · injection h with h1
           injection h1 with h2
           subst h2
           decide
         · exact Option.noConfusion h)
     (by decide)
     rfl⟩

end Cheevr
